import Mathlib

/-!
Verification of the FLAME1 mixed-effects GLM estimator
(`src/halfpipe/stats/flame1.py`) against its natural-language
specification.

The development contains two shallow embeddings of the same source file:

* an executable model over `Fl`, an idealised IEEE-754 double
  (`NaN`, `±∞`, and exact rational finite values; no overflow, no
  rounding, no negative zero).  This model captures the special-value
  and control-flow behaviour of the code (NaN guards, listwise
  deletion, the non-negativity assertion, `LinAlgError` handling,
  output-volume assembly);

* a model over `ℝ` using Mathlib matrices, the exact-real-arithmetic
  idealisation used for the algebraic scale-invariance property.

External numerical primitives that the source calls
(`scipy.optimize.minimize_scalar`/Brent, `t2z_convert`, `f2z_convert`)
are not part of the repository sources available here; they enter the
models as explicit function parameters, so every theorem quantifies
over them.  `listwise_deletion` and `demean` (from
`halfpipe/stats/base.py`, likewise not available) are modelled from
the specification's description; see their doc comments.
-/

deriving instance DecidableEq for Except

namespace Flame1

/-- Python-level exceptions that `flame1.py` distinguishes:
`np.linalg.LinAlgError` (caught by the per-voxel and per-contrast
handlers) and `AssertionError` (raised by the variance non-negativity
assertion, caught nowhere). -/
inductive PyErr where
  | linAlgError : PyErr
  | assertionError : PyErr
deriving DecidableEq

/-- Idealised IEEE-754 double: `NaN`, the two infinities, and exact
finite values represented as rationals.  Overflow, rounding and the
sign of zero are not modelled. -/
inductive Fl where
  | nan : Fl
  | pinf : Fl
  | ninf : Fl
  | fin : ℚ → Fl
deriving DecidableEq

namespace Fl

/-- IEEE addition on the idealised doubles. -/
def add : Fl → Fl → Fl
  | nan, _ => nan
  | _, nan => nan
  | pinf, ninf => nan
  | ninf, pinf => nan
  | pinf, _ => pinf
  | _, pinf => pinf
  | ninf, _ => ninf
  | _, ninf => ninf
  | fin a, fin b => fin (a + b)

/-- IEEE negation. -/
def neg : Fl → Fl
  | nan => nan
  | pinf => ninf
  | ninf => pinf
  | fin a => fin (-a)

/-- IEEE subtraction, `a - b = a + (-b)`. -/
def sub (a b : Fl) : Fl := add a (neg b)

/-- IEEE multiplication; `0 * ∞ = NaN`. -/
def mul : Fl → Fl → Fl
  | nan, _ => nan
  | _, nan => nan
  | pinf, pinf => pinf
  | pinf, ninf => ninf
  | ninf, pinf => ninf
  | ninf, ninf => pinf
  | pinf, fin b => if b = 0 then nan else if 0 < b then pinf else ninf
  | fin a, pinf => if a = 0 then nan else if 0 < a then pinf else ninf
  | ninf, fin b => if b = 0 then nan else if 0 < b then ninf else pinf
  | fin a, ninf => if a = 0 then nan else if 0 < a then ninf else pinf
  | fin a, fin b => fin (a * b)

/-- IEEE division; `0/0 = NaN`, `x/0 = ±∞` for `x ≠ 0` (the model has
no negative zero, so division by zero behaves as division by `+0`),
`x/∞ = 0`, `∞/∞ = NaN`. -/
def div : Fl → Fl → Fl
  | nan, _ => nan
  | _, nan => nan
  | pinf, pinf => nan
  | pinf, ninf => nan
  | ninf, pinf => nan
  | ninf, ninf => nan
  | pinf, fin b => if 0 ≤ b then pinf else ninf
  | ninf, fin b => if 0 ≤ b then ninf else pinf
  | fin _, pinf => fin 0
  | fin _, ninf => fin 0
  | fin a, fin b =>
      if b = 0 then (if a = 0 then nan else if 0 < a then pinf else ninf)
      else fin (a / b)

/-- Integer square root by downward search, bounded by the fuel:
`isqrtAux f n` is the largest `k ≤ f` with `k * k ≤ n`.  Structural
recursion keeps it evaluable by kernel reduction. -/
def isqrtAux : ℕ → ℕ → ℕ
  | 0, _ => 0
  | f + 1, n => if (f + 1) * (f + 1) ≤ n then f + 1 else isqrtAux f n

/-- Integer square root: largest `k` with `k * k ≤ n`. -/
def isqrt (n : ℕ) : ℕ := isqrtAux n n

/-- Rational stand-in for the real square root: exact on rationals
whose numerator and denominator are perfect squares (every concrete
value this development evaluates a square root at is of that form),
and some nonnegative rational otherwise. -/
def sqrtQ (q : ℚ) : ℚ := (isqrt q.num.toNat : ℚ) / (isqrt q.den : ℚ)

/-- IEEE square root (`np.sqrt`): `NaN` on negative arguments and
`NaN`, `+∞` on `+∞`. -/
def sqrt : Fl → Fl
  | nan => nan
  | pinf => pinf
  | ninf => nan
  | fin a => if a < 0 then nan else fin (sqrtQ a)

/-- IEEE `<`: comparisons with `NaN` are false. -/
def lt : Fl → Fl → Bool
  | nan, _ => false
  | _, nan => false
  | ninf, ninf => false
  | ninf, _ => true
  | _, ninf => false
  | pinf, pinf => false
  | pinf, _ => false
  | _, pinf => true
  | fin a, fin b => decide (a < b)

/-- `math.isnan`. -/
def isNaN : Fl → Bool
  | nan => true
  | _ => false

/-- `math.isfinite`. -/
def isFinite : Fl → Bool
  | fin _ => true
  | _ => false

/-- `math.isclose(x, 0)` with the default tolerances
(`rel_tol = 1e-9`, `abs_tol = 0.0`): the test `|x - 0| ≤ max(rel_tol *
max(|x|, 0), 0)` reduces to `|x| ≤ 1e-9 * |x|`, i.e. to `x = 0`
exactly; CPython returns `False` when either argument is an infinity
(unless equal) or `NaN`.  So `isclose(x, 0)` holds iff `x` is the
finite value `0`. -/
def isClose0 : Fl → Bool
  | fin a => decide (a = 0)
  | _ => false

/-- The rational carried by a finite value (garbage `0` otherwise;
used only after finiteness has been checked). -/
def toQ : Fl → ℚ
  | fin a => a
  | _ => 0

end Fl

/-- Sum of a list of doubles in left-to-right accumulation order
(the canonical order of the model; exact rational addition makes the
order immaterial on all-finite data). -/
def sumFl (l : List Fl) : Fl := l.foldl Fl.add (Fl.fin 0)

/-- Dot product of two double vectors. -/
def dotFl (a b : List Fl) : Fl := sumFl (List.zipWith Fl.mul a b)

/-- `np.mean`: the empty mean is `0/0 = NaN`, as in NumPy. -/
def meanFl (l : List Fl) : Fl := Fl.div (sumFl l) (Fl.fin (l.length : ℚ))

/-- `np.std` with `ddof=0`: `sqrt(mean((x - mean x)^2))`; `NaN` on an
empty vector. -/
def stdFl (l : List Fl) : Fl :=
  Fl.sqrt (meanFl (l.map fun v => Fl.mul (Fl.sub v (meanFl l)) (Fl.sub v (meanFl l))))

/-- Matrix with column `j` deleted from every row (used by the
Laplace expansion of the determinant). -/
def minorCols (rows : List (List ℚ)) (j : ℕ) : List (List ℚ) :=
  rows.map (fun row => row.eraseIdx j)

/-- Laplace expansion of the determinant along the first row, with a
structural fuel argument so that the definition evaluates by kernel
reduction.  `detAux n M = det M` whenever `M.length ≤ n`. -/
def detAux : ℕ → List (List ℚ) → ℚ
  | _, [] => 1
  | 0, _ :: _ => 1
  | fuel + 1, r :: rs =>
      ((List.range r.length).map
        (fun j => (-1 : ℚ) ^ j * r.getD j 0 * detAux fuel (minorCols rs j))).sum

/-- Determinant of a square rational matrix given as a list of rows. -/
def detQ (M : List (List ℚ)) : ℚ := detAux M.length M

/-- Matrix `A` with column `j` replaced by the vector `b`. -/
def replaceCol (A : List (List ℚ)) (j : ℕ) (b : List ℚ) : List (List ℚ) :=
  (A.zip b).map (fun rb => rb.1.set j rb.2)

/-- Exact solve of the square system `A x = b` by Cramer's rule when
`A` is invertible.  When `det A = 0` the zero vector is returned: this
is the value `np.linalg.lstsq` (minimum-norm least squares) produces
in the singular cases this development evaluates (zero matrix, zero
right-hand side), and the invertible case — the generic case in the
source — is exact. -/
def solveSquareQ (A : List (List ℚ)) (b : List ℚ) : List ℚ :=
  let d := detQ A
  if d = 0 then List.replicate A.length 0
  else (List.range A.length).map (fun j => detQ (replaceCol A j b) / d)

/-- Model of `np.linalg.lstsq(A, b)` for the square systems the
source solves: raises `LinAlgError` when the input contains a `NaN`
or an infinity (LAPACK's SVD does not converge on non-finite data),
and otherwise returns the exact solution of `solveSquareQ`. -/
def lstsqFl (A : List (List Fl)) (b : List Fl) : Except PyErr (List Fl) :=
  if (A.all fun row => row.all Fl.isFinite) && b.all Fl.isFinite then
    .ok ((solveSquareQ (A.map (·.map Fl.toQ)) (b.map Fl.toQ)).map Fl.fin)
  else .error .linAlgError

/-- Entry `a` of row `i` of a design matrix stored as a list of rows
(out-of-range reads return `0`; they never occur on aligned data). -/
def zget (z : List (List Fl)) (i a : ℕ) : Fl := (z.getD i []).getD a (Fl.fin 0)

/-- `calcgam(beta, y, z, s)` (flame1.py lines 23–33): form the diagonal
weighting `1/(s + beta)`, build the weighted normal equations
`ziUz = zᵀ·diag(1/(s+beta))·z` and right-hand side `zᵀ·diag(…)·y`, and
solve by least squares.  The diagonal structure of `iU` is collapsed
into per-row scaling (exact, because the design matrix entries are
finite after `nan_to_num`).  `k` is the number of design columns,
which NumPy reads off the array shape. -/
def calcgam (beta : Fl) (y : List Fl) (z : List (List Fl)) (k : ℕ) (s : List Fl) :
    Except PyErr (List Fl × List (List Fl)) :=
  let weights := s.map (fun si => Fl.add si beta)
  let invW := weights.map (fun w => Fl.div (Fl.fin 1) w)
  let m := y.length
  let ziUz := (List.range k).map fun a => (List.range k).map fun b =>
    sumFl ((List.range m).map fun i =>
      Fl.mul (Fl.mul (zget z i a) (invW.getD i (Fl.fin 0))) (zget z i b))
  let rhs := (List.range k).map fun a =>
    sumFl ((List.range m).map fun i =>
      Fl.mul (Fl.mul (zget z i a) (invW.getD i (Fl.fin 0))) (y.getD i (Fl.fin 0)))
  match lstsqFl ziUz rhs with
  | .error e => .error e
  | .ok gam => .ok (gam, ziUz)

/-- `flame_stage1_onvoxel(y, z, s)` (flame1.py lines 70–84), with the
in-place NumPy mutations `y /= norm` and `s /= np.square(norm)` made
explicit: the result is the pair (return value, final contents of the
argument buffers `y`, `z`, `s`).  `sfb` is `solveforbeta` — the
empirical-Bayes selection of the between-subject variance via
`scipy.optimize.minimize_scalar` (Brent), an external numerical
routine modelled as an oracle parameter; every theorem below
quantifies over it.  The assertion `not np.any(s < 0)` raises
`AssertionError`, which nothing in the source catches. -/
def flame_stage1_onvoxel_state
    (sfb : List Fl → List (List Fl) → List Fl → Fl)
    (y : List Fl) (z : List (List Fl)) (k : ℕ) (s : List Fl) :
    Except PyErr (List Fl × List (List Fl)) × List Fl × List (List Fl) × List Fl :=
  let norm := stdFl y
  let y1 := y.map (fun v => Fl.div v norm)
  let s1 := s.map (fun v => Fl.div v (Fl.mul norm norm))
  let res : Except PyErr (List Fl × List (List Fl)) :=
    if s1.any (fun v => Fl.lt v (Fl.fin 0)) then .error .assertionError
    else
      match calcgam (sfb y1 z s1) y1 z k s1 with
      | .error e => .error e
      | .ok (gam, ziUz) =>
          .ok (gam.map (fun g => Fl.mul g norm),
               ziUz.map (fun row => row.map (fun v => Fl.div v (Fl.mul norm norm))))
  (res, y1, z, s1)

/-- Return value of `flame_stage1_onvoxel` (the mutation of the
argument buffers is recorded by `flame_stage1_onvoxel_state`). -/
def flame_stage1_onvoxel (sfb : List Fl → List (List Fl) → List Fl → Fl)
    (y : List Fl) (z : List (List Fl)) (k : ℕ) (s : List Fl) :
    Except PyErr (List Fl × List (List Fl)) :=
  (flame_stage1_onvoxel_state sfb y z k s).1

/-- `t_ols_contrast(mn, inverse_covariance, dof, tcontrast)` (flame1.py
lines 87–103).  `t2z` is `t2z_convert` from `halfpipe/stats/miscmaths`
(not among the sources; the spec describes it as a monotonic,
sign-preserving t→z transform), passed as a parameter.  The guard
short-circuits the division exactly as in the source:
`isnan(cope) or isnan(varcope) or isclose(varcope, 0) or varcope < 0`. -/
def t_ols_contrast (t2z : Fl → ℤ → Fl) (mn : List Fl)
    (inverse_covariance : List (List Fl)) (dof : ℤ) (tcontrast : List (List Fl)) :
    Except PyErr (Fl × Fl × Fl × Fl) :=
  let row := tcontrast.headD []
  match lstsqFl inverse_covariance row with
  | .error e => .error e
  | .ok sol =>
      let varcope := dotFl row sol
      let cope := dotFl row mn
      let t :=
        if Fl.isNaN cope || Fl.isNaN varcope || Fl.isClose0 varcope ||
            Fl.lt varcope (Fl.fin 0) then Fl.nan
        else Fl.div cope (Fl.sqrt varcope)
      .ok (cope, varcope, t, t2z t dof)

/-- Sequential `Except`-valued map, written out so the per-column
least-squares solves of the F-contrast can be reasoned about by plain
induction. -/
def exceptMapList {α β : Type} (f : α → Except PyErr β) : List α → Except PyErr (List β)
  | [] => .ok []
  | a :: rest =>
      match f a with
      | .error e => .error e
      | .ok b =>
          match exceptMapList f rest with
          | .error e => .error e
          | .ok bs => .ok (b :: bs)

/-- `f_ols_contrast(mn, inverse_covariance, dof1, dof2, fcontrast)`
(flame1.py lines 106–115): `a = C · lstsq(icov, Cᵀ)`,
`b = lstsq(a, C)`, `f = mnᵀ·Cᵀ·b·mn / dof1` (`@` associates to the
left, so the product is computed as `((mnᵀCᵀ)·b)·mn`).  `f2z` is
`f2z_convert`, a parameter as for the t-path.  The two least-squares
solves with matrix right-hand sides are performed column by column. -/
def f_ols_contrast (f2z : Fl → ℤ → ℤ → Fl) (mn : List Fl)
    (inverse_covariance : List (List Fl)) (dof1 dof2 : ℤ)
    (fcontrast : List (List Fl)) : Except PyErr (Fl × Fl) :=
  match exceptMapList (lstsqFl inverse_covariance) fcontrast with
  | .error e => .error e
  | .ok sols =>
      let a := fcontrast.map fun rp => sols.map fun sq => dotFl rp sq
      let kd := (fcontrast.headD []).length
      match exceptMapList
          (fun j => lstsqFl a (fcontrast.map fun r => r.getD j (Fl.fin 0)))
          (List.range kd) with
      | .error e => .error e
      | .ok bcols =>
          let u := fcontrast.map fun r => dotFl r mn
          let w := bcols.map fun c => dotFl u c
          let f := Fl.div (dotFl w mn) (Fl.fin (dof1 : ℚ))
          .ok (f, f2z f dof1 dof2)

/-- Result dictionary of one contrast evaluation: the t-path returns
`{cope, var_cope, tdof, tstat, zstat, mask}`, the F-path
`{fstat, fdof1, fdof2, zstat, mask}` (flame1.py lines 129–142). -/
inductive ContrastResult where
  | t (cope var_cope : Fl) (tdof : ℤ) (tstat zstat : Fl) (mask : Bool) : ContrastResult
  | f (fstat : Fl) (fdof1 fdof2 : ℤ) (zstat : Fl) (mask : Bool) : ContrastResult
deriving DecidableEq

/-- The `zstat` entry of a contrast result. -/
def ContrastResult.zstatOf : ContrastResult → Fl
  | .t _ _ _ _ z _ => z
  | .f _ _ _ z _ => z

/-- The `mask` entry of a contrast result. -/
def ContrastResult.maskOf : ContrastResult → Bool
  | .t _ _ _ _ _ m => m
  | .f _ _ _ _ m => m

/-- The `tdof` entry of a t-contrast result (`0` on the F-path, which
stores no `tdof`). -/
def ContrastResult.tdofOf : ContrastResult → ℤ
  | .t _ _ d _ _ _ => d
  | .f _ _ _ _ _ => 0

/-- `flame1_contrast(mn, inverse_covariance, npts, cmat)` (flame1.py
lines 118–142): dispatch on the number of contrast rows — one row is
evaluated as a t-contrast, more than one as an F-contrast, and a
zero-row contrast matrix falls through both branches and returns
`None`.  In both real branches `mask = isfinite(zstat)`. -/
def flame1_contrast (t2z : Fl → ℤ → Fl) (f2z : Fl → ℤ → ℤ → Fl)
    (mn : List Fl) (inverse_covariance : List (List Fl)) (npts : ℕ)
    (cmat : List (List Fl)) : Except PyErr (Option ContrastResult) :=
  let nevs := mn.length
  let n := cmat.length
  if n = 1 then
    let tdoflower : ℤ := (npts : ℤ) - (nevs : ℤ)
    match t_ols_contrast t2z mn inverse_covariance tdoflower cmat with
    | .error e => .error e
    | .ok (cope, varcope, t, z) =>
        .ok (some (.t cope varcope tdoflower t z (Fl.isFinite z)))
  else if 1 < n then
    let fdof1 : ℤ := (n : ℤ)
    let fdof2lower : ℤ := (npts : ℤ) - (nevs : ℤ)
    match f_ols_contrast f2z mn inverse_covariance fdof1 fdof2lower cmat with
    | .error e => .error e
    | .ok (f, z) =>
        .ok (some (.f f fdof1 fdof2lower z (Fl.isFinite z)))
  else .ok none

/-- Modelled from the spec: `listwise_deletion` from
`halfpipe/stats/base.py` is not among the sources.  The spec says
"rows with missing (non-finite) effect or variance are first removed
(listwise deletion) from effect, variance, and the corresponding
design rows". -/
def listwise_deletion (y : List Fl) (z : List (List Fl)) (s : List Fl) :
    List Fl × List (List Fl) × List Fl :=
  let triples := (y.zip (z.zip s)).filter
    (fun t => Fl.isFinite t.1 && Fl.isFinite t.2.2)
  (triples.map (·.1), triples.map (·.2.1), triples.map (·.2.2))

/-- Largest finite double, the value `np.nan_to_num` substitutes for
`+∞`. -/
def maxFloat : ℚ := (2 ^ 53 - 1) * 2 ^ 971

/-- `np.nan_to_num` on the design matrix: `NaN → 0`,
`±∞ → ±maxFloat`. -/
def nan_to_num (z : List (List Fl)) : List (List Fl) :=
  z.map (·.map fun v =>
    match v with
    | .nan => .fin 0
    | .pinf => .fin maxFloat
    | .ninf => .fin (-maxFloat)
    | x => x)

/-- Mean of column `j` of the design matrix. -/
def colMeanFl (z : List (List Fl)) (j : ℕ) : Fl :=
  meanFl (z.map fun row => row.getD j (Fl.fin 0))

/-- Modelled from the spec: `demean` from `halfpipe/stats/base.py` is
not among the sources.  The spec says "the design matrix is then
demeaned column-wise over the remaining rows"; the model subtracts
each column's mean from the column. -/
def demean (z : List (List Fl)) : List (List Fl) :=
  z.map fun row => row.enum.map fun jv => Fl.sub jv.2 (colMeanFl z jv.1)

/-- `flame1_prepare_data(y, z, s)` (flame1.py lines 145–156):
`nan_to_num` on the design, listwise deletion, then demeaning. -/
def flame1_prepare_data (y : List Fl) (z : List (List Fl)) (s : List Fl) :
    List Fl × List (List Fl) × List Fl :=
  let z0 := nan_to_num z
  match listwise_deletion y z0 s with
  | (y1, z1, s1) => (y1, demean z1, s1)

/-- Integer voxel coordinate. -/
def Coord := ℕ × ℕ × ℕ
deriving DecidableEq

/-- The contrast loop of `FLAME1.voxel_calc` (flame1.py lines
179–188): evaluate every named contrast against the voxel's estimate;
a `LinAlgError` raised by one contrast's evaluation skips only that
contrast (`except LinAlgError: continue`); any other exception
propagates. -/
def voxelLoop (t2z : Fl → ℤ → Fl) (f2z : Fl → ℤ → ℤ → Fl)
    (coordinate : Coord) (mn : List Fl) (inverse_covariance : List (List Fl))
    (npts : ℕ) : List (String × List (List Fl)) →
    Except PyErr (List (String × (Coord × Option ContrastResult)))
  | [] => .ok []
  | (name, cmat) :: rest =>
      match flame1_contrast t2z f2z mn inverse_covariance npts cmat with
      | .ok r =>
          match voxelLoop t2z f2z coordinate mn inverse_covariance npts rest with
          | .error e => .error e
          | .ok l => .ok ((name, (coordinate, r)) :: l)
      | .error .linAlgError => voxelLoop t2z f2z coordinate mn inverse_covariance npts rest
      | .error e => .error e

/-- `FLAME1.voxel_calc` (flame1.py lines 162–188): prepare the data,
record `npts = y.size` after deletion, run the stage-1 fit (a
`LinAlgError` there returns `None` for the whole voxel; an
`AssertionError` escapes), then evaluate every contrast.  `k` is the
number of design columns. -/
def voxel_calc (sfb : List Fl → List (List Fl) → List Fl → Fl)
    (t2z : Fl → ℤ → Fl) (f2z : Fl → ℤ → ℤ → Fl) (coordinate : Coord)
    (y : List Fl) (z : List (List Fl)) (s : List Fl) (k : ℕ)
    (cmatdict : List (String × List (List Fl))) :
    Except PyErr (Option (List (String × (Coord × Option ContrastResult)))) :=
  match flame1_prepare_data y z s with
  | (y1, z1, s1) =>
    let npts := y1.length
    match flame_stage1_onvoxel sfb y1 z1 k s1 with
    | .error .linAlgError => .ok none
    | .error e => .error e
    | .ok (mn, inverse_covariance) =>
        match voxelLoop t2z f2z coordinate mn inverse_covariance npts cmatdict with
        | .error e => .error e
        | .ok res => .ok (some res)

/-- Statistic (row) names that can appear in a per-contrast result
table.  The source keys its result dictionaries with exactly these
strings; modelling them as an enumeration makes the
`map_name → output_name` translation analysable by cases. -/
inductive StatName where
  | cope | var_cope | tdof | tstat | zstat | mask | fstat | fdof1 | fdof2
deriving DecidableEq

/-- Output-group naming (flame1.py lines 235–239): `tdof` keeps its
bare name, every other statistic name is pluralised with `s`. -/
def outputNameOf : StatName → String
  | .cope => "copes"
  | .var_cope => "var_copes"
  | .tdof => "tdof"
  | .tstat => "tstats"
  | .zstat => "zstats"
  | .mask => "masks"
  | .fstat => "fstats"
  | .fdof1 => "fdof1s"
  | .fdof2 => "fdof2s"

/-- Cell of a result table: the `mask` column holds booleans, every
other column holds doubles. -/
inductive CellVal where
  | num : Fl → CellVal
  | boolean : Bool → CellVal
deriving DecidableEq

/-- One voxel's result dictionary, as a keyed record. -/
def Rec := List (StatName × CellVal)

/-- The record a contrast result contributes to the per-contrast
table (the dict literals of flame1.py lines 129–131 and 142; the
integer degrees of freedom are stored as doubles when scattered). -/
def recordOf : ContrastResult → Rec
  | .t c vc d t z m =>
      [(.cope, .num c), (.var_cope, .num vc), (.tdof, .num (Fl.fin (d : ℚ))),
       (.tstat, .num t), (.zstat, .num z), (.mask, .boolean m)]
  | .f fv d1 d2 z m =>
      [(.fstat, .num fv), (.fdof1, .num (Fl.fin (d1 : ℚ))),
       (.fdof2, .num (Fl.fin (d2 : ℚ))), (.zstat, .num z), (.mask, .boolean m)]

/-- Association-list lookup (first match). -/
def alookup {α β : Type} [DecidableEq α] : List (α × β) → α → Option β
  | [], _ => none
  | (k, v) :: rest, a => if k = a then some v else alookup rest a

/-- Row (statistic) names present in a contrast's sparse table: the
union of the keys of the per-voxel records (`rdf.index`). -/
def recKeys (recs : List (Coord × Rec)) : List StatName :=
  ((recs.map (fun cr => cr.2.map (·.1))).flatten).dedup

/-- Rows of the table after the guaranteed-column fixup (flame1.py
lines 208–214): append a `mask` row if absent, then a `zstat` row if
absent. -/
def rowsWithGuaranteed (recs : List (Coord × Rec)) : List StatName :=
  let rows := recKeys recs
  let rows1 := rows ++ (if StatName.mask ∈ rows then [] else [StatName.mask])
  rows1 ++ (if StatName.zstat ∈ rows1 then [] else [StatName.zstat])

/-- Dense output volume: the reference shape together with the cell
value at each coordinate. -/
structure Volume where
  shape : ℕ × ℕ × ℕ
  data : Coord → CellVal

/-- Default cell of the dense array before scattering: `mask` volumes
start as an all-`False` boolean array (`np.zeros(shape, bool)`), every
other volume starts as all-`NaN` (`np.full(shape, np.nan)`). -/
def arrayDefault (s : StatName) : CellVal :=
  if s = StatName.mask then .boolean false else .num Fl.nan

/-- Dense volume scattered from the sparse per-contrast table for row
`s` (flame1.py lines 216–227): a coordinate with no record keeps the
array default; a recorded coordinate takes its table cell, which is
the record's entry when row `s` came from the records, the `False`
fill for an appended `mask` row, and the `NaN` fill for an appended
`zstat` row (missing cells of a present row are `NaN`, pandas's
fill). -/
def mkVolume (refShape : ℕ × ℕ × ℕ) (recs : List (Coord × Rec)) (s : StatName) :
    Volume where
  shape := refShape
  data := fun c =>
    match alookup recs c with
    | none => arrayDefault s
    | some rec =>
        if s ∈ recKeys recs then (alookup rec s).getD (.num Fl.nan)
        else if s = StatName.mask then .boolean false
        else .num Fl.nan

/-- `FLAME1.outputs` (flame1.py line 160). -/
def FLAME1_outputs : List String :=
  ["copes", "var_copes", "tdof", "zstats", "tstats", "fstats", "masks"]

/-- State of the `output_files` dictionary: for each known
output-group name, the list with one slot per contrast (`False`,
modelled `none`, where nothing has been produced). -/
def OutState := String → Option (List (Option Volume))

/-- `output_files[output_name][i] = fname`, guarded by
`if output_name in output_files` (flame1.py lines 241–242): names not
in the dictionary are silently dropped. -/
def updateOut (st : OutState) (name : String) (i : ℕ) (vol : Volume) : OutState :=
  fun n => if n = name then (st name).map (fun l => l.set i (some vol)) else st n

/-- Per-contrast row loop of `write_outputs` (flame1.py lines
216–242): scatter each row of the fixed-up table into a dense volume
and store it at slot `i` of its output group. -/
def processContrast (refShape : ℕ × ℕ × ℕ) (recs : List (Coord × Rec)) (i : ℕ)
    (st : OutState) : OutState :=
  (rowsWithGuaranteed recs).foldl
    (fun acc s => updateOut acc (outputNameOf s) i (mkVolume refShape recs s)) st

/-- Contrast loop of `write_outputs`
(`for i, contrast_name in enumerate(cmatdict.keys())`). -/
def writeLoop (refShape : ℕ × ℕ × ℕ) (voxel_results : String → List (Coord × Rec)) :
    ℕ → List (String × List (List Fl)) → OutState → OutState
  | _, [], st => st
  | i, (cname, _) :: rest, st =>
      writeLoop refShape voxel_results (i + 1) rest
        (processContrast refShape (voxel_results cname) i st)

/-- `FLAME1.write_outputs(ref_img, cmatdict, voxel_results)`
(flame1.py lines 190–244).  `refShape` is `ref_img.shape[:3]`; the
NIfTI serialisation is external I/O and the produced volume stands in
for the written file.  `voxel_results` is the per-contrast merge of
per-voxel records, produced by the `ModelAlgorithm` driver
(`halfpipe/stats/base.py`, not among the sources) and modelled from
the spec as a total map from contrast name to recorded
(coordinate, record) pairs, empty for a contrast no voxel
contributed to. -/
def write_outputs (refShape : ℕ × ℕ × ℕ)
    (cmatdict : List (String × List (List Fl)))
    (voxel_results : String → List (Coord × Rec)) : OutState :=
  writeLoop refShape voxel_results 0 cmatdict
    (fun n => if n ∈ FLAME1_outputs
      then some (List.replicate cmatdict.length (none : Option Volume))
      else none)

/-- Slot `i` of output group `name`: `none` when the group does not
exist, `some none` when the slot is still the `False` placeholder,
`some (some vol)` when a volume has been stored. -/
def slotAt (st : OutState) (name : String) (i : ℕ) : Option (Option Volume) :=
  match st name with
  | none => none
  | some l => l[i]?

/-!  Exact-real-arithmetic model.  The scale-invariance property of
the spec is stated "exactly, in real arithmetic"; the following
definitions render the same source functions over `ℝ` with Mathlib
matrices.  `np.linalg.lstsq` solves the square systems of the source;
on invertible systems — the generic case — that is multiplication by
the inverse, and Mathlib's convention `A⁻¹ = 0` for singular `A`
coincides with the zero solution the executable model uses there.
The NaN outcome of the t-statistic guard is `Option.none`; in exact
arithmetic `isnan` cannot fire and `isclose(varcope, 0)` with default
tolerances is `varcope = 0`, so the guard is `varcope ≤ 0`.  The
variance non-negativity assertion and the non-finite special cases
live in the executable `Fl` model above. -/

open Matrix

/-- `np.mean` over `ℝ`. -/
noncomputable def meanRv {m : ℕ} (y : Fin m → ℝ) : ℝ := (∑ i, y i) / (m : ℝ)

/-- `np.std` (`ddof = 0`) over `ℝ`. -/
noncomputable def stdRv {m : ℕ} (y : Fin m → ℝ) : ℝ :=
  Real.sqrt (meanRv (fun i => (y i - meanRv y) ^ 2))

/-- `calcgam` over `ℝ` (flame1.py lines 23–33): weighted normal
equations and their least-squares solution. -/
noncomputable def calcgamR {m k : ℕ} (beta : ℝ) (y : Fin m → ℝ)
    (z : Matrix (Fin m) (Fin k) ℝ) (s : Fin m → ℝ) :
    (Fin k → ℝ) × Matrix (Fin k) (Fin k) ℝ :=
  let invW : Fin m → ℝ := fun i => 1 / (s i + beta)
  let tmp : Matrix (Fin k) (Fin m) ℝ := z.transpose * Matrix.diagonal invW
  let ziUz := tmp * z
  (ziUz⁻¹.mulVec (tmp.mulVec y), ziUz)

/-- `flame_stage1_onvoxel` over `ℝ` (flame1.py lines 70–84):
normalise by the sample standard deviation, fit, and undo the
rescaling on the returned mean vector and precision matrix.  `sfb` is
the `solveforbeta` oracle as in the executable model. -/
noncomputable def flame_stage1_onvoxelR {m k : ℕ}
    (sfb : (Fin m → ℝ) → Matrix (Fin m) (Fin k) ℝ → (Fin m → ℝ) → ℝ)
    (y : Fin m → ℝ) (z : Matrix (Fin m) (Fin k) ℝ) (s : Fin m → ℝ) :
    (Fin k → ℝ) × Matrix (Fin k) (Fin k) ℝ :=
  let norm := stdRv y
  let y1 := fun i => y i / norm
  let s1 := fun i => s i / norm ^ 2
  let p := calcgamR (sfb y1 z s1) y1 z s1
  (fun j => p.1 j * norm, Matrix.of fun a b => p.2 a b / norm ^ 2)

/-- `t_ols_contrast` over `ℝ` (flame1.py lines 87–103); the result is
`(cope, varcope, tstat, zstat)` with `none` as the NaN outcome. -/
noncomputable def t_ols_contrastR (t2z : ℝ → ℤ → ℝ) {k : ℕ} (mn : Fin k → ℝ)
    (inverse_covariance : Matrix (Fin k) (Fin k) ℝ) (dof : ℤ) (row : Fin k → ℝ) :
    ℝ × ℝ × Option ℝ × Option ℝ :=
  let varcope := row ⬝ᵥ inverse_covariance⁻¹.mulVec row
  let cope := row ⬝ᵥ mn
  let t : Option ℝ := if varcope ≤ 0 then none else some (cope / Real.sqrt varcope)
  (cope, varcope, t, t.map (fun tv => t2z tv dof))

/-- `f_ols_contrast` over `ℝ` (flame1.py lines 106–115); the matrix
product in `f` associates to the left as Python's `@` does. -/
noncomputable def f_ols_contrastR (f2z : ℝ → ℤ → ℤ → ℝ) {k n : ℕ}
    (mn : Fin k → ℝ) (inverse_covariance : Matrix (Fin k) (Fin k) ℝ)
    (dof1 dof2 : ℤ) (fcontrast : Matrix (Fin n) (Fin k) ℝ) : ℝ × ℝ :=
  let a := fcontrast * (inverse_covariance⁻¹ * fcontrast.transpose)
  let b := a⁻¹ * fcontrast
  let f := ((fcontrast.mulVec mn) ᵥ* b) ⬝ᵥ mn / (dof1 : ℝ)
  (f, f2z f dof1 dof2)

/-- The t-path of `flame1_contrast` over `ℝ`: stage-1 fit followed by
the single-row contrast with `tdof = npts - nevs` (`nevs` is the
number of design columns, the length of the mean vector). -/
noncomputable def flame1_t_pipelineR {m k : ℕ}
    (sfb : (Fin m → ℝ) → Matrix (Fin m) (Fin k) ℝ → (Fin m → ℝ) → ℝ)
    (t2z : ℝ → ℤ → ℝ) (y : Fin m → ℝ) (z : Matrix (Fin m) (Fin k) ℝ)
    (s : Fin m → ℝ) (npts : ℕ) (row : Fin k → ℝ) : ℝ × ℝ × Option ℝ × Option ℝ :=
  let p := flame_stage1_onvoxelR sfb y z s
  t_ols_contrastR t2z p.1 p.2 ((npts : ℤ) - (k : ℤ)) row

/-- The F-path of `flame1_contrast` over `ℝ`: stage-1 fit followed by
the multi-row contrast with `fdof1 = n`, `fdof2 = npts - nevs`. -/
noncomputable def flame1_f_pipelineR {m k n : ℕ}
    (sfb : (Fin m → ℝ) → Matrix (Fin m) (Fin k) ℝ → (Fin m → ℝ) → ℝ)
    (f2z : ℝ → ℤ → ℤ → ℝ) (y : Fin m → ℝ) (z : Matrix (Fin m) (Fin k) ℝ)
    (s : Fin m → ℝ) (npts : ℕ) (fcontrast : Matrix (Fin n) (Fin k) ℝ) : ℝ × ℝ :=
  let p := flame_stage1_onvoxelR sfb y z s
  f_ols_contrastR f2z p.1 p.2 (n : ℤ) ((npts : ℤ) - (k : ℤ)) fcontrast

/-! Helper lemmas. -/

lemma lstsqFl_error {A : List (List Fl)} {b : List Fl} {e : PyErr}
    (h : lstsqFl A b = .error e) : e = .linAlgError := by
  unfold lstsqFl at h
  split at h
  · cases h
  · cases h; rfl

lemma exceptMapList_error {α β : Type} {f : α → Except PyErr β}
    (hf : ∀ a e, f a = .error e → e = .linAlgError) :
    ∀ {l : List α} {e : PyErr}, exceptMapList f l = .error e → e = .linAlgError := by
  intro l
  induction l with
  | nil => intro e h; cases h
  | cons a rest ih =>
      intro e h
      unfold exceptMapList at h
      rcases hfa : f a with e' | b
      · rw [hfa] at h; cases h; exact hf a _ hfa
      · rw [hfa] at h
        rcases hrest : exceptMapList f rest with e' | bs
        · rw [hrest] at h; cases h; exact ih hrest
        · rw [hrest] at h; cases h

lemma t_ols_contrast_error {t2z : Fl → ℤ → Fl} {mn : List Fl}
    {icov : List (List Fl)} {dof : ℤ} {tc : List (List Fl)} {e : PyErr}
    (h : t_ols_contrast t2z mn icov dof tc = .error e) : e = .linAlgError := by
  simp only [t_ols_contrast] at h
  rcases hl : lstsqFl icov (tc.headD []) with e' | sol
  · simp only [hl] at h; cases h; exact lstsqFl_error hl
  · simp only [hl] at h; cases h

lemma f_ols_contrast_error {f2z : Fl → ℤ → ℤ → Fl} {mn : List Fl}
    {icov : List (List Fl)} {dof1 dof2 : ℤ} {fc : List (List Fl)} {e : PyErr}
    (h : f_ols_contrast f2z mn icov dof1 dof2 fc = .error e) : e = .linAlgError := by
  simp only [f_ols_contrast] at h
  rcases h1 : exceptMapList (lstsqFl icov) fc with e' | sols
  · simp only [h1] at h; cases h
    exact exceptMapList_error (fun a e h => lstsqFl_error h) h1
  · simp only [h1] at h
    rcases h2 : exceptMapList
        (fun j => lstsqFl (fc.map fun rp => sols.map fun sq => dotFl rp sq)
          (fc.map fun r => r.getD j (Fl.fin 0)))
        (List.range (fc.headD []).length) with e' | bcols
    · simp only [h2] at h; cases h
      exact exceptMapList_error (fun a e h => lstsqFl_error h) h2
    · simp only [h2] at h; cases h

lemma flame1_contrast_error {t2z : Fl → ℤ → Fl} {f2z : Fl → ℤ → ℤ → Fl}
    {mn : List Fl} {icov : List (List Fl)} {npts : ℕ} {cmat : List (List Fl)}
    {e : PyErr} (h : flame1_contrast t2z f2z mn icov npts cmat = .error e) :
    e = .linAlgError := by
  simp only [flame1_contrast] at h
  split at h
  · rcases ht : t_ols_contrast t2z mn icov ((npts : ℤ) - (mn.length : ℤ)) cmat
      with e' | r
    · simp only [ht] at h; cases h; exact t_ols_contrast_error ht
    · rcases r with ⟨c, vc, t, z⟩; simp only [ht] at h; cases h
  · split at h
    · rcases hf : f_ols_contrast f2z mn icov (cmat.length : ℤ)
          ((npts : ℤ) - (mn.length : ℤ)) cmat with e' | r
      · simp only [hf] at h; cases h; exact f_ols_contrast_error hf
      · rcases r with ⟨fv, z⟩; simp only [hf] at h; cases h
    · cases h

/-- The contrast loop records exactly the contrasts whose evaluation
succeeds, in order; contrasts whose evaluation raises are skipped
individually. -/
lemma voxelLoop_eq (t2z : Fl → ℤ → Fl) (f2z : Fl → ℤ → ℤ → Fl)
    (coordinate : Coord) (mn : List Fl) (icov : List (List Fl)) (npts : ℕ) :
    ∀ cmatdict : List (String × List (List Fl)),
    voxelLoop t2z f2z coordinate mn icov npts cmatdict =
      .ok (cmatdict.filterMap fun p =>
        (flame1_contrast t2z f2z mn icov npts p.2).toOption.map
          (fun r => (p.1, (coordinate, r)))) := by
  intro cmatdict
  induction cmatdict with
  | nil => rfl
  | cons p rest ih =>
      rcases p with ⟨name, cmat⟩
      unfold voxelLoop
      rcases hc : flame1_contrast t2z f2z mn icov npts cmat with e | r
      · have he := flame1_contrast_error hc
        subst he
        simp [ih, List.filterMap_cons, hc, Except.toOption]
      · simp [ih, List.filterMap_cons, hc, Except.toOption]

lemma solveSquareQ_length (A : List (List ℚ)) (b : List ℚ) :
    (solveSquareQ A b).length = A.length := by
  simp only [solveSquareQ]
  split
  · simp
  · simp

lemma lstsqFl_ok_length {A : List (List Fl)} {b : List Fl} {sol : List Fl}
    (h : lstsqFl A b = .ok sol) : sol.length = A.length := by
  unfold lstsqFl at h
  split at h
  · cases h
    simp [solveSquareQ_length]
  · cases h

lemma calcgam_ok_gam_length {beta : Fl} {y : List Fl} {z : List (List Fl)}
    {k : ℕ} {s : List Fl} {gam : List Fl} {ziUz : List (List Fl)}
    (h : calcgam beta y z k s = .ok (gam, ziUz)) : gam.length = k := by
  simp only [calcgam] at h
  rcases hl : lstsqFl
      ((List.range k).map fun a => (List.range k).map fun b =>
        sumFl ((List.range y.length).map fun i =>
          Fl.mul (Fl.mul (zget z i a)
            ((s.map (fun si => Fl.add si beta)).map
              (fun w => Fl.div (Fl.fin 1) w) |>.getD i (Fl.fin 0))) (zget z i b)))
      ((List.range k).map fun a =>
        sumFl ((List.range y.length).map fun i =>
          Fl.mul (Fl.mul (zget z i a)
            ((s.map (fun si => Fl.add si beta)).map
              (fun w => Fl.div (Fl.fin 1) w) |>.getD i (Fl.fin 0))) (y.getD i (Fl.fin 0))))
      with e | gam'
  · simp only [hl] at h
    cases h
  · simp only [hl] at h
    cases h
    have := lstsqFl_ok_length hl
    simpa using this

lemma stage1_ok_mn_length {sfb : List Fl → List (List Fl) → List Fl → Fl}
    {y : List Fl} {z : List (List Fl)} {k : ℕ} {s : List Fl}
    {mn : List Fl} {icov : List (List Fl)}
    (h : flame_stage1_onvoxel sfb y z k s = .ok (mn, icov)) : mn.length = k := by
  simp only [flame_stage1_onvoxel, flame_stage1_onvoxel_state] at h
  split at h
  · cases h
  · rcases hc : calcgam
        (sfb (y.map fun v => Fl.div v (stdFl y)) z
          (s.map fun v => Fl.div v (Fl.mul (stdFl y) (stdFl y))))
        (y.map fun v => Fl.div v (stdFl y)) z k
        (s.map fun v => Fl.div v (Fl.mul (stdFl y) (stdFl y))) with e | q
    · simp only [hc] at h; cases h
    · rcases q with ⟨gam, ziUz⟩
      simp only [hc] at h
      cases h
      have := calcgam_ok_gam_length hc
      simpa using this

/-- C5: for every contrast result produced — t-path and F-path alike —
the `mask` field equals `isfinite(zstat)`. -/
theorem claim5_mask_iff_finite_zstat (t2z : Fl → ℤ → Fl) (f2z : Fl → ℤ → ℤ → Fl)
    (mn : List Fl) (inverse_covariance : List (List Fl)) (npts : ℕ)
    (cmat : List (List Fl)) (r : ContrastResult)
    (h : flame1_contrast t2z f2z mn inverse_covariance npts cmat = .ok (some r)) :
    r.maskOf = Fl.isFinite r.zstatOf := by
  simp only [flame1_contrast] at h
  split at h
  · rcases ht : t_ols_contrast t2z mn inverse_covariance
        ((npts : ℤ) - (mn.length : ℤ)) cmat with e | q
    · simp only [ht] at h; cases h
    · rcases q with ⟨c, vc, t, z⟩
      simp only [ht] at h
      cases h
      rfl
  · split at h
    · rcases hf : f_ols_contrast f2z mn inverse_covariance (cmat.length : ℤ)
          ((npts : ℤ) - (mn.length : ℤ)) cmat with e | q
      · simp only [hf] at h; cases h
      · rcases q with ⟨fv, z⟩
        simp only [hf] at h
        cases h
        rfl
    · simp at h

/-- Witness for C5 at a concrete single-row contrast. -/
theorem claim5_mask_iff_finite_zstat_witness :
    (ContrastResult.t (Fl.fin 2) (Fl.fin 1) 2 (Fl.fin 2) (Fl.fin 2) true).maskOf
      = Fl.isFinite
          (ContrastResult.t (Fl.fin 2) (Fl.fin 1) 2 (Fl.fin 2) (Fl.fin 2) true).zstatOf :=
  claim5_mask_iff_finite_zstat (fun t _ => t) (fun f _ _ => f) [Fl.fin 2]
    [[Fl.fin 1]] 3 [[Fl.fin 1]] _ (by with_unfolding_all decide)

/-- C6: when a voxel's estimate succeeds, the voxel's recorded results
are exactly the per-contrast successes, in order: a `LinAlgError`
raised while evaluating one contrast removes only that
(voxel, contrast) pair, and every sibling contrast is still evaluated
and recorded. -/
theorem claim6_contrast_failure_isolation
    (sfb : List Fl → List (List Fl) → List Fl → Fl) (t2z : Fl → ℤ → Fl)
    (f2z : Fl → ℤ → ℤ → Fl) (coordinate : Coord) (y : List Fl)
    (z : List (List Fl)) (s : List Fl) (k : ℕ)
    (cmatdict : List (String × List (List Fl))) (mn : List Fl)
    (inverse_covariance : List (List Fl))
    (hstage : flame_stage1_onvoxel sfb (flame1_prepare_data y z s).1
      (flame1_prepare_data y z s).2.1 k (flame1_prepare_data y z s).2.2
      = .ok (mn, inverse_covariance)) :
    voxel_calc sfb t2z f2z coordinate y z s k cmatdict =
      .ok (some (cmatdict.filterMap fun p =>
        (flame1_contrast t2z f2z mn inverse_covariance
            (flame1_prepare_data y z s).1.length p.2).toOption.map
          (fun r => (p.1, (coordinate, r))))) := by
  unfold voxel_calc
  rcases hp : flame1_prepare_data y z s with ⟨y1, z1, s1⟩
  rw [hp] at hstage
  simp only [hstage]
  rw [voxelLoop_eq]

/-- Witness for C6: with the estimate `mn = [0]`,
`icov = [[0]]`, the contrast `"a" = [[NaN]]` raises and is skipped
while the sibling `"b" = []` is still recorded. -/
theorem claim6_contrast_failure_isolation_witness :
    voxel_calc (fun _ _ _ => Fl.fin 1) (fun t _ => t) (fun f _ _ => f) (0, 0, 0)
      [Fl.fin 1, Fl.fin 2] [[Fl.fin 1], [Fl.fin 1]] [Fl.fin 1, Fl.fin 1] 1
      [("a", [[Fl.nan]]), ("b", [])] =
      .ok (some ([("a", [[Fl.nan]]), ("b", ([] : List (List Fl)))].filterMap fun p =>
        (flame1_contrast (fun t _ => t) (fun f _ _ => f) [Fl.fin 0] [[Fl.fin 0]]
            (flame1_prepare_data [Fl.fin 1, Fl.fin 2]
              [[Fl.fin 1], [Fl.fin 1]] [Fl.fin 1, Fl.fin 1]).1.length p.2).toOption.map
          (fun r => (p.1, (((0, 0, 0) : Coord), r))))) :=
  claim6_contrast_failure_isolation (fun _ _ _ => Fl.fin 1) (fun t _ => t)
    (fun f _ _ => f) (0, 0, 0) [Fl.fin 1, Fl.fin 2] [[Fl.fin 1], [Fl.fin 1]]
    [Fl.fin 1, Fl.fin 1] 1 [("a", [[Fl.nan]]), ("b", [])] [Fl.fin 0] [[Fl.fin 0]]
    (by with_unfolding_all decide)

/-- C10: a zero-row contrast matrix falls through both branches of the
dispatcher (`flame1_contrast` returns `None`), and `voxel_calc` still
records that `None` under the contrast's name for the voxel coordinate
instead of skipping the entry. -/
theorem claim10_zero_row_contrast_records_none
    (sfb : List Fl → List (List Fl) → List Fl → Fl) (t2z : Fl → ℤ → Fl)
    (f2z : Fl → ℤ → ℤ → Fl) (coordinate : Coord) (y : List Fl)
    (z : List (List Fl)) (s : List Fl) (k : ℕ)
    (cmatdict : List (String × List (List Fl))) (name : String)
    (res : List (String × (Coord × Option ContrastResult)))
    (hmem : (name, ([] : List (List Fl))) ∈ cmatdict)
    (hok : voxel_calc sfb t2z f2z coordinate y z s k cmatdict = .ok (some res)) :
    (name, (coordinate, (none : Option ContrastResult))) ∈ res := by
  unfold voxel_calc at hok
  rcases hp : flame1_prepare_data y z s with ⟨y1, z1, s1⟩
  rw [hp] at hok
  rcases hs : flame_stage1_onvoxel sfb y1 z1 k s1 with e | q
  · rcases e <;> simp only [hs] at hok <;> cases hok
  · rcases q with ⟨mn, icov⟩
    simp only [hs] at hok
    rw [voxelLoop_eq] at hok
    cases hok
    exact List.mem_filterMap.mpr ⟨(name, []), hmem, by
      simp [flame1_contrast, Except.toOption]⟩

/-- Witness for C10 at a concrete voxel with a zero-row contrast. -/
theorem claim10_zero_row_contrast_records_none_witness :
    (("z0", (((0, 0, 0) : Coord), (none : Option ContrastResult))) ∈
      [("z0", (((0, 0, 0) : Coord), (none : Option ContrastResult)))]) :=
  claim10_zero_row_contrast_records_none (fun _ _ _ => Fl.fin 1) (fun t _ => t)
    (fun f _ _ => f) (0, 0, 0) [Fl.fin 1, Fl.fin 2] [[Fl.fin 1], [Fl.fin 1]]
    [Fl.fin 1, Fl.fin 1] 1 [("z0", [])] "z0"
    [("z0", (((0, 0, 0) : Coord), (none : Option ContrastResult)))]
    (by with_unfolding_all decide) (by with_unfolding_all decide)

/-- C7: every recorded single-row (t) contrast result carries
`tdof = npts - nevs`, the number of observations remaining after
listwise deletion minus the number of design columns. -/
theorem claim7_tdof_eq_npts_minus_nevs
    (sfb : List Fl → List (List Fl) → List Fl → Fl) (t2z : Fl → ℤ → Fl)
    (f2z : Fl → ℤ → ℤ → Fl) (coordinate : Coord) (y : List Fl)
    (z : List (List Fl)) (s : List Fl) (k : ℕ)
    (cmatdict : List (String × List (List Fl))) (name : String) (c' : Coord)
    (res : List (String × (Coord × Option ContrastResult)))
    (cope vc : Fl) (dof : ℤ) (t zz : Fl) (m : Bool)
    (hok : voxel_calc sfb t2z f2z coordinate y z s k cmatdict = .ok (some res))
    (hmem : (name, (c', some (ContrastResult.t cope vc dof t zz m))) ∈ res) :
    dof = ((flame1_prepare_data y z s).1.length : ℤ) - (k : ℤ) := by
  unfold voxel_calc at hok
  rcases hp : flame1_prepare_data y z s with ⟨y1, z1, s1⟩
  rw [hp] at hok
  rcases hs : flame_stage1_onvoxel sfb y1 z1 k s1 with e | q
  · rcases e <;> simp only [hs] at hok <;> cases hok
  · rcases q with ⟨mn, icov⟩
    simp only [hs] at hok
    rw [voxelLoop_eq] at hok
    cases hok
    rcases List.mem_filterMap.mp hmem with ⟨⟨name2, cmat⟩, hmemd, heval⟩
    rcases hc : flame1_contrast t2z f2z mn icov y1.length cmat with e | r0
    · rw [hc] at heval; cases heval
    · rw [hc] at heval
      simp only [Except.toOption, Option.map_some] at heval
      cases heval
      have hmn : mn.length = k := stage1_ok_mn_length hs
      simp only [flame1_contrast] at hc
      split at hc
      · rcases ht : t_ols_contrast t2z mn icov ((y1.length : ℤ) - (mn.length : ℤ)) cmat
          with e | q2
        · simp only [ht] at hc; cases hc
        · rcases q2 with ⟨c2, vc2, t2, z2⟩
          simp only [ht] at hc
          cases hc
          simp [hmn]
      · split at hc
        · rcases hf : f_ols_contrast f2z mn icov (cmat.length : ℤ)
              ((y1.length : ℤ) - (mn.length : ℤ)) cmat with e | q2
          · simp only [hf] at hc; cases hc
          · rcases q2 with ⟨f2, z2⟩
            simp only [hf] at hc
            cases hc
        · simp at hc

/-- Witness for C7, the spec's listwise-deletion scenario: three
subjects, intercept-only design, `effect = [1, NaN, 3]`; the NaN row
is deleted and the recorded `tdof` is `2 - 1 = 1`. -/
theorem claim7_tdof_eq_npts_minus_nevs_witness :
    (1 : ℤ) = ((flame1_prepare_data [Fl.fin 1, Fl.nan, Fl.fin 3]
      [[Fl.fin 1], [Fl.fin 1], [Fl.fin 1]]
      [Fl.fin (1/10), Fl.fin (1/10), Fl.fin (1/10)]).1.length : ℤ) - (1 : ℤ) :=
  claim7_tdof_eq_npts_minus_nevs (fun _ _ _ => Fl.fin 1) (fun t _ => t)
    (fun f _ _ => f) (0, 0, 0) [Fl.fin 1, Fl.nan, Fl.fin 3]
    [[Fl.fin 1], [Fl.fin 1], [Fl.fin 1]]
    [Fl.fin (1/10), Fl.fin (1/10), Fl.fin (1/10)] 1 [("c", [[Fl.fin 1]])] "c"
    (0, 0, 0)
    [("c", (((0, 0, 0) : Coord),
      some (ContrastResult.t (Fl.fin 0) (Fl.fin 0) 1 Fl.nan Fl.nan false)))]
    (Fl.fin 0) (Fl.fin 0) 1 Fl.nan Fl.nan false
    (by with_unfolding_all decide) (by with_unfolding_all decide)

lemma Fl.mul_nan (v : Fl) : Fl.mul v Fl.nan = Fl.nan := by cases v <;> rfl

lemma Fl.div_nan (v : Fl) : Fl.div v Fl.nan = Fl.nan := by cases v <;> rfl

lemma isqrtAux_pos : ∀ f n : ℕ, 1 ≤ f → 1 ≤ n → 1 ≤ Fl.isqrtAux f n := by
  intro f
  induction f with
  | zero => intro n h; omega
  | succ f ih =>
      intro n _ hn
      unfold Fl.isqrtAux
      split
      · omega
      · rename_i hcond
        rcases Nat.eq_zero_or_pos f with hf | hf
        · subst hf; omega
        · exact ih n hf hn

lemma isqrt_pos {n : ℕ} (hn : 1 ≤ n) : 1 ≤ Fl.isqrt n :=
  isqrtAux_pos n n hn hn

lemma sqrtQ_pos {q : ℚ} (hq : 0 < q) : 0 < Fl.sqrtQ q := by
  unfold Fl.sqrtQ
  apply div_pos
  · have hnum : 0 < q.num := Rat.num_pos.mpr hq
    have : 1 ≤ q.num.toNat := by omega
    have := isqrt_pos this
    exact_mod_cast Nat.lt_of_lt_of_le Nat.zero_lt_one this
  · have : 1 ≤ q.den := q.pos
    have := isqrt_pos this
    exact_mod_cast Nat.lt_of_lt_of_le Nat.zero_lt_one this

lemma sqrtQ_nonneg (q : ℚ) : 0 ≤ Fl.sqrtQ q := by
  unfold Fl.sqrtQ
  positivity

lemma foldl_add_fin : ∀ (l : List Fl) (a : ℚ),
    (∀ v ∈ l, Fl.isFinite v = true) →
    l.foldl Fl.add (Fl.fin a) = Fl.fin (a + (l.map Fl.toQ).sum) := by
  intro l
  induction l with
  | nil => intro a _; simp
  | cons v rest ih =>
      intro a h
      have hv := h v (by simp)
      cases v <;> simp [Fl.isFinite] at hv
      rename_i b
      have := ih (a + b) (fun w hw => h w (by simp [hw]))
      simp only [List.foldl_cons, Fl.add] at this ⊢
      rw [this]
      simp [Fl.toQ]
      ring

lemma sumFl_fin {l : List Fl} (h : ∀ v ∈ l, Fl.isFinite v = true) :
    sumFl l = Fl.fin ((l.map Fl.toQ).sum) := by
  have := foldl_add_fin l 0 h
  simpa [sumFl] using this

lemma zipWith_mul_fin : ∀ (a b : List Fl),
    (∀ v ∈ a, Fl.isFinite v = true) → (∀ v ∈ b, Fl.isFinite v = true) →
    ∀ w ∈ List.zipWith Fl.mul a b, Fl.isFinite w = true := by
  intro a
  induction a with
  | nil => intro b _ _ w hw; simp at hw
  | cons x xs ih =>
      intro b ha hb w hw
      cases b with
      | nil => simp at hw
      | cons y ys =>
          simp only [List.zipWith_cons_cons, List.mem_cons] at hw
          rcases hw with rfl | hw
          · have hx := ha x (by simp)
            have hy := hb y (by simp)
            cases x <;> simp [Fl.isFinite] at hx
            cases y <;> simp [Fl.isFinite] at hy
            rfl
          · exact ih ys (fun v hv => ha v (by simp [hv]))
              (fun v hv => hb v (by simp [hv])) w hw

lemma dotFl_fin (a b : List Fl)
    (ha : ∀ v ∈ a, Fl.isFinite v = true) (hb : ∀ v ∈ b, Fl.isFinite v = true) :
    ∃ q : ℚ, dotFl a b = Fl.fin q :=
  ⟨_, sumFl_fin (zipWith_mul_fin a b ha hb)⟩

lemma lstsqFl_ok_parts {A : List (List Fl)} {b sol : List Fl}
    (h : lstsqFl A b = .ok sol) :
    (A.all fun row => row.all Fl.isFinite) = true ∧ b.all Fl.isFinite = true ∧
    ∀ v ∈ sol, Fl.isFinite v = true := by
  unfold lstsqFl at h
  split at h
  · rename_i hcond
    rw [Bool.and_eq_true] at hcond
    rcases hcond with ⟨h1, h2⟩
    cases h
    refine ⟨h1, h2, ?_⟩
    intro v hv
    rcases List.mem_map.mp hv with ⟨q, _, rfl⟩
    rfl
  · cases h

lemma lstsqFl_err_of_bad {A : List (List Fl)} (b : List Fl)
    (hbad : (A.all fun row => row.all Fl.isFinite) = false) :
    lstsqFl A b = .error .linAlgError := by
  unfold lstsqFl
  rw [hbad]
  simp

/-- A non-finite entry in the precision matrix makes every non-empty
contrast evaluation raise `LinAlgError` (the first least-squares solve
of either path fails). -/
lemma flame1_contrast_err_of_bad_icov {t2z : Fl → ℤ → Fl}
    {f2z : Fl → ℤ → ℤ → Fl} {mn : List Fl} {icov : List (List Fl)} {npts : ℕ}
    {cmat : List (List Fl)}
    (hbad : (icov.all fun row => row.all Fl.isFinite) = false)
    (hne : cmat ≠ []) :
    flame1_contrast t2z f2z mn icov npts cmat = .error .linAlgError := by
  have hl : ∀ b, lstsqFl icov b = .error .linAlgError :=
    fun b => lstsqFl_err_of_bad b hbad
  simp only [flame1_contrast]
  split
  · simp only [t_ols_contrast, hl]
  · split
    · rcases cmat with _ | ⟨c0, rest⟩
      · exact absurd rfl hne
      · simp only [f_ols_contrast, exceptMapList, hl]
    · rename_i h1 h2
      have : cmat.length = 0 := by omega
      exact absurd (List.length_eq_zero.mp this) hne

/-- C2 counterexample: with `mn = [+∞]`, `icov = [[1]]`,
`tcontrast = [[1]]` the cope is the non-finite value `+∞`, yet the
returned t statistic is `+∞`, not NaN — the source's guard tests
`isnan`, not `isfinite`. -/
theorem claim2_counterexample :
    t_ols_contrast (fun t _ => t) [Fl.pinf] [[Fl.fin 1]] 0 [[Fl.fin 1]]
      = .ok (Fl.pinf, Fl.fin 1, Fl.pinf, Fl.pinf)
    ∧ Fl.isFinite Fl.pinf = false ∧ Fl.isNaN Fl.pinf = false := by
  with_unfolding_all decide

/-- C2 (amended): in a successful t-contrast evaluation the t
statistic is NaN exactly when `cope` or `varcope` is NaN (not merely
non-finite), or `varcope` is zero (what `isclose(varcope, 0)` means at
the default tolerances), or `varcope < 0`; otherwise
`t = cope / sqrt(varcope)` — in particular an infinite cope yields an
infinite t. -/
theorem claim2_t_nan_guard_amended (t2z : Fl → ℤ → Fl) (mn : List Fl)
    (inverse_covariance : List (List Fl)) (dof : ℤ) (tcontrast : List (List Fl))
    (cope varcope t z : Fl)
    (h : t_ols_contrast t2z mn inverse_covariance dof tcontrast
      = .ok (cope, varcope, t, z)) :
    (Fl.isNaN t = true ↔
      (Fl.isNaN cope || Fl.isNaN varcope || Fl.isClose0 varcope ||
        Fl.lt varcope (Fl.fin 0)) = true)
    ∧ ((Fl.isNaN cope || Fl.isNaN varcope || Fl.isClose0 varcope ||
        Fl.lt varcope (Fl.fin 0)) = false →
        t = Fl.div cope (Fl.sqrt varcope)) := by
  simp only [t_ols_contrast] at h
  rcases hl : lstsqFl inverse_covariance (tcontrast.headD []) with e | sol
  · simp only [hl] at h; cases h
  · simp only [hl] at h
    cases h
    obtain ⟨hA, hb, hsol⟩ := lstsqFl_ok_parts hl
    obtain ⟨q, hq⟩ := dotFl_fin (tcontrast.headD []) sol
      (fun v hv => List.all_eq_true.mp hb v hv) hsol
    rw [hq]
    by_cases hg : (Fl.isNaN (dotFl (tcontrast.headD []) mn) ||
        Fl.isNaN (Fl.fin q) || Fl.isClose0 (Fl.fin q) ||
        Fl.lt (Fl.fin q) (Fl.fin 0)) = true
    · rw [if_pos hg]
      exact ⟨⟨fun _ => hg, fun _ => rfl⟩, fun hfalse => by rw [hfalse] at hg; cases hg⟩
    · rw [if_neg hg]
      have hg' := Bool.not_eq_true _ ▸ hg
      refine ⟨?_, fun _ => rfl⟩
      have hgf : (Fl.isNaN (dotFl (tcontrast.headD []) mn) ||
          Fl.isNaN (Fl.fin q) || Fl.isClose0 (Fl.fin q) ||
          Fl.lt (Fl.fin q) (Fl.fin 0)) = false := by
        cases hb2 : (Fl.isNaN (dotFl (tcontrast.headD []) mn) ||
          Fl.isNaN (Fl.fin q) || Fl.isClose0 (Fl.fin q) ||
          Fl.lt (Fl.fin q) (Fl.fin 0))
        · rfl
        · exact absurd hb2 hg
      rw [hgf]
      simp only [Bool.or_eq_false_iff] at hgf
      obtain ⟨⟨⟨hnc, _⟩, hc0⟩, hlt0⟩ := hgf
      have hq0 : q ≠ 0 := by
        simpa [Fl.isClose0] using hc0
      have hqnn : ¬ q < 0 := by
        simpa [Fl.lt] using hlt0
      have hqpos : 0 < q := lt_of_le_of_ne (not_lt.mp hqnn) (Ne.symm hq0)
      have hsq : Fl.sqrt (Fl.fin q) = Fl.fin (Fl.sqrtQ q) := by
        simp [Fl.sqrt, hqnn]
      rw [hsq]
      have hr : Fl.sqrtQ q ≠ 0 := ne_of_gt (sqrtQ_pos hqpos)
      have hrnn : 0 ≤ Fl.sqrtQ q := sqrtQ_nonneg q
      constructor
      · intro hnan
        exfalso
        rcases hx : dotFl (tcontrast.headD []) mn with _ | _ | _ | a
        · rw [hx] at hnc; simp [Fl.isNaN] at hnc
        · rw [hx] at hnan; simp [Fl.div, hrnn] at hnan
          simp [Fl.isNaN] at hnan
        · rw [hx] at hnan; simp [Fl.div, hrnn] at hnan
          simp [Fl.isNaN] at hnan
        · rw [hx] at hnan; simp [Fl.div, hr] at hnan
          simp [Fl.isNaN] at hnan
      · intro hfalse
        cases hfalse

/-- Witness for the amended C2 at a concrete well-posed contrast. -/
theorem claim2_t_nan_guard_amended_witness :
    (Fl.isNaN (Fl.fin 1) = true ↔
      (Fl.isNaN (Fl.fin 1) || Fl.isNaN (Fl.fin 1) || Fl.isClose0 (Fl.fin 1) ||
        Fl.lt (Fl.fin 1) (Fl.fin 0)) = true)
    ∧ ((Fl.isNaN (Fl.fin 1) || Fl.isNaN (Fl.fin 1) || Fl.isClose0 (Fl.fin 1) ||
        Fl.lt (Fl.fin 1) (Fl.fin 0)) = false →
        Fl.fin 1 = Fl.div (Fl.fin 1) (Fl.sqrt (Fl.fin 1))) :=
  claim2_t_nan_guard_amended (fun t _ => t) [Fl.fin 1] [[Fl.fin 1]] 0
    [[Fl.fin 1]] (Fl.fin 1) (Fl.fin 1) (Fl.fin 1) (Fl.fin 1)
    (by with_unfolding_all decide)

/-- C8 counterexample: `flame_stage1_onvoxel` divides its `effect`
argument in place (`y /= norm`); after the call on
`effect = [0, 4]` (sample standard deviation `2`) the caller's buffer
holds `[0, 2]`, not `[0, 4]`. -/
theorem claim8_counterexample :
    (flame_stage1_onvoxel_state (fun _ _ _ => Fl.fin 1) [Fl.fin 0, Fl.fin 4]
      [[Fl.fin 1], [Fl.fin 1]] 1 [Fl.fin 1, Fl.fin 1]).2.1
      ≠ [Fl.fin 0, Fl.fin 4] := by
  with_unfolding_all decide

/-- C8 (amended): `flame_stage1_onvoxel` is not free of side effects —
it overwrites its `effect` buffer with `effect / std(effect)` and its
`variance` buffer with `variance / std(effect)²`; only the design
matrix argument is left unchanged. -/
theorem claim8_inplace_normalisation_amended
    (sfb : List Fl → List (List Fl) → List Fl → Fl) (y : List Fl)
    (z : List (List Fl)) (k : ℕ) (s : List Fl) :
    (flame_stage1_onvoxel_state sfb y z k s).2 =
      (y.map (fun v => Fl.div v (stdFl y)), z,
        s.map (fun v => Fl.div v (Fl.mul (stdFl y) (stdFl y)))) := rfl

lemma meanFl_fin {l : List Fl} (hne : l ≠ [])
    (h : ∀ v ∈ l, Fl.isFinite v = true) :
    meanFl l = Fl.fin ((l.map Fl.toQ).sum / (l.length : ℚ)) := by
  have hlen0 : l.length ≠ 0 := by simpa using hne
  have hlen : ((l.length : ℚ)) ≠ 0 := Nat.cast_ne_zero.mpr hlen0
  rw [meanFl, sumFl_fin h]
  simp [Fl.div, hlen]

lemma stdFl_fin_nonneg {l : List Fl} (hne : l ≠ [])
    (h : ∀ v ∈ l, Fl.isFinite v = true) :
    ∃ q : ℚ, 0 ≤ q ∧ stdFl l = Fl.fin q := by
  have hmean := meanFl_fin hne h
  have hdev : (l.map fun v => Fl.mul (Fl.sub v (meanFl l)) (Fl.sub v (meanFl l)))
      = l.map (fun v =>
          Fl.fin ((Fl.toQ v - (l.map Fl.toQ).sum / (l.length : ℚ)) *
            (Fl.toQ v - (l.map Fl.toQ).sum / (l.length : ℚ)))) := by
    apply List.map_congr_left
    intro v hv
    have hvf := h v hv
    cases v <;> simp [Fl.isFinite] at hvf
    simp [hmean, Fl.sub, Fl.neg, Fl.add, Fl.mul, Fl.toQ, sub_eq_add_neg]
  rw [stdFl, hdev]
  have hfin2 : ∀ w ∈ l.map (fun v =>
      Fl.fin ((Fl.toQ v - (l.map Fl.toQ).sum / (l.length : ℚ)) *
        (Fl.toQ v - (l.map Fl.toQ).sum / (l.length : ℚ)))),
      Fl.isFinite w = true := by
    intro w hw
    rcases List.mem_map.mp hw with ⟨v, _, rfl⟩
    rfl
  have hne2 : l.map (fun v =>
      Fl.fin ((Fl.toQ v - (l.map Fl.toQ).sum / (l.length : ℚ)) *
        (Fl.toQ v - (l.map Fl.toQ).sum / (l.length : ℚ)))) ≠ [] := by
    simpa using hne
  rw [meanFl_fin hne2 hfin2]
  have hMnum : 0 ≤ ((l.map (fun v =>
      Fl.fin ((Fl.toQ v - (l.map Fl.toQ).sum / (l.length : ℚ)) *
        (Fl.toQ v - (l.map Fl.toQ).sum / (l.length : ℚ))))).map Fl.toQ).sum := by
    apply List.sum_nonneg
    intro x hx
    rcases List.mem_map.mp hx with ⟨w, hw, rfl⟩
    rcases List.mem_map.mp hw with ⟨v, _, rfl⟩
    simpa [Fl.toQ] using mul_self_nonneg _
  have hM : 0 ≤ ((l.map (fun v =>
      Fl.fin ((Fl.toQ v - (l.map Fl.toQ).sum / (l.length : ℚ)) *
        (Fl.toQ v - (l.map Fl.toQ).sum / (l.length : ℚ))))).map Fl.toQ).sum /
        (((l.map (fun v =>
          Fl.fin ((Fl.toQ v - (l.map Fl.toQ).sum / (l.length : ℚ)) *
            (Fl.toQ v - (l.map Fl.toQ).sum / (l.length : ℚ))))).length : ℚ)) :=
    div_nonneg hMnum (by positivity)
  rw [Fl.sqrt]
  rw [if_neg (not_lt.mpr hM)]
  exact ⟨_, sqrtQ_nonneg _, rfl⟩

lemma zip3_getD_mem (y : List Fl) (zz : List (List Fl)) (s : List Fl) :
    ∀ i : ℕ, i < y.length → i < zz.length → i < s.length →
    (y.getD i Fl.nan, (zz.getD i [], s.getD i Fl.nan)) ∈ y.zip (zz.zip s) := by
  induction y generalizing zz s with
  | nil => intro i hiy; simp at hiy
  | cons a ys ih =>
      intro i hiy hiz his
      cases zz with
      | nil => simp at hiz
      | cons zr zrs =>
          cases s with
          | nil => simp at his
          | cons b bs =>
              cases i with
              | zero => simp
              | succ j =>
                  simp only [List.zip_cons_cons, List.getD_cons_succ, List.mem_cons]
                  right
                  exact ih zrs bs j (by simpa using hiy) (by simpa using hiz)
                    (by simpa using his)

/-- C9 counterexample: with `effect = [NaN, 1, 2]` and
`variance = [-1, 1, 1]`, the row carrying the negative variance is
removed by listwise deletion (its effect is NaN) before the
non-negativity assertion runs, so supplying a negative variance does
not fail fast: estimation proceeds and even records a contrast
result. -/
theorem claim9_counterexample :
    voxel_calc (fun _ _ _ => Fl.fin 1) (fun t _ => t) (fun f _ _ => f) (0, 0, 0)
      [Fl.nan, Fl.fin 1, Fl.fin 2] [[Fl.fin 1], [Fl.fin 1], [Fl.fin 1]]
      [Fl.fin (-1), Fl.fin 1, Fl.fin 1] 1 [("c", [[Fl.fin 1]])]
      = .ok (some [("c", (((0, 0, 0) : Coord),
          some (ContrastResult.t (Fl.fin 0) (Fl.fin 0) 1 Fl.nan Fl.nan false)))])
    ∧ voxel_calc (fun _ _ _ => Fl.fin 1) (fun t _ => t) (fun f _ _ => f) (0, 0, 0)
      [Fl.nan, Fl.fin 1, Fl.fin 2] [[Fl.fin 1], [Fl.fin 1], [Fl.fin 1]]
      [Fl.fin (-1), Fl.fin 1, Fl.fin 1] 1 [("c", [[Fl.fin 1]])]
      ≠ .error .assertionError := by
  constructor
  · with_unfolding_all decide
  · with_unfolding_all decide

set_option maxHeartbeats 1600000 in
/-- C9 (amended): a negative variance in a row that survives listwise
deletion (finite effect and finite variance in that row) makes the
per-voxel estimation fail fast: the non-negativity assertion raises
`AssertionError`, which is not caught by the recoverable handlers and
escapes `voxel_calc`.  (A negative variance in a row deleted for a
non-finite effect is silently dropped; see the counterexample.) -/
theorem claim9_negative_variance_amended
    (sfb : List Fl → List (List Fl) → List Fl → Fl) (t2z : Fl → ℤ → Fl)
    (f2z : Fl → ℤ → ℤ → Fl) (coordinate : Coord) (y : List Fl)
    (z : List (List Fl)) (s : List Fl) (k : ℕ)
    (cmatdict : List (String × List (List Fl))) (i : ℕ)
    (hiy : i < y.length) (hiz : i < z.length) (his : i < s.length)
    (hyfin : Fl.isFinite (y.getD i Fl.nan) = true)
    (hsfin : Fl.isFinite (s.getD i Fl.nan) = true)
    (hneg : Fl.lt (s.getD i Fl.nan) (Fl.fin 0) = true) :
    voxel_calc sfb t2z f2z coordinate y z s k cmatdict
      = .error .assertionError := by
  have hiz0 : i < (nan_to_num z).length := by simpa [nan_to_num] using hiz
  have hmemzip := zip3_getD_mem y (nan_to_num z) s i hiy hiz0 his
  have hpred : (Fl.isFinite (y.getD i Fl.nan) &&
      Fl.isFinite (s.getD i Fl.nan)) = true := by
    rw [Bool.and_eq_true]; exact ⟨hyfin, hsfin⟩
  have hmemf : (y.getD i Fl.nan, ((nan_to_num z).getD i [], s.getD i Fl.nan)) ∈
      (y.zip ((nan_to_num z).zip s)).filter
        (fun t => Fl.isFinite t.1 && Fl.isFinite t.2.2) :=
    List.mem_filter.mpr ⟨hmemzip, hpred⟩
  -- notation for the surviving triples and their projections
  set triples := (y.zip ((nan_to_num z).zip s)).filter
    (fun t => Fl.isFinite t.1 && Fl.isFinite t.2.2) with htriples
  have hy1fin : ∀ v ∈ triples.map (·.1), Fl.isFinite v = true := by
    intro v hv
    rcases List.mem_map.mp hv with ⟨t, ht, rfl⟩
    have := (List.mem_filter.mp ht).2
    rw [Bool.and_eq_true] at this
    exact this.1
  have hy1ne : triples.map (·.1) ≠ [] := by
    intro hcontra
    rw [List.map_eq_nil_iff] at hcontra
    rw [hcontra] at hmemf
    simp at hmemf
  obtain ⟨q, hq0, hstd⟩ := stdFl_fin_nonneg hy1ne hy1fin
  -- the negative variance survives into the normalised variance vector
  have hsmem : s.getD i Fl.nan ∈ triples.map (·.2.2) :=
    List.mem_map_of_mem (·.2.2) hmemf
  obtain ⟨b, hb⟩ : ∃ b : ℚ, s.getD i Fl.nan = Fl.fin b := by
    rcases hx : s.getD i Fl.nan with _ | _ | _ | b
    · rw [hx] at hsfin; cases hsfin
    · rw [hx] at hsfin; cases hsfin
    · rw [hx] at hsfin; cases hsfin
    · exact ⟨b, rfl⟩
  have hbneg : b < 0 := by
    rw [hb] at hneg
    simpa [Fl.lt] using hneg
  have hany : ((triples.map (·.2.2)).map
      (fun v => Fl.div v (Fl.mul (Fl.fin q) (Fl.fin q)))).any
      (fun v => Fl.lt v (Fl.fin 0)) = true := by
    apply List.any_eq_true.mpr
    refine ⟨Fl.div (s.getD i Fl.nan) (Fl.mul (Fl.fin q) (Fl.fin q)),
      List.mem_map_of_mem (fun v => Fl.div v (Fl.mul (Fl.fin q) (Fl.fin q)))
        hsmem, ?_⟩
    rw [hb]
    have hmulq : Fl.mul (Fl.fin q) (Fl.fin q) = Fl.fin (q * q) := rfl
    rw [hmulq]
    by_cases hqq : q * q = 0
    · have hdiv : Fl.div (Fl.fin b) (Fl.fin (q * q)) = Fl.ninf := by
        simp only [Fl.div]
        rw [if_pos hqq, if_neg (ne_of_lt hbneg), if_neg (not_lt.mpr hbneg.le)]
      rw [hdiv]
      rfl
    · have hqqpos : 0 < q * q := lt_of_le_of_ne (mul_self_nonneg q) (Ne.symm hqq)
      have hdiv : Fl.div (Fl.fin b) (Fl.fin (q * q)) = Fl.fin (b / (q * q)) := by
        simp only [Fl.div]
        rw [if_neg hqq]
      rw [hdiv]
      have hlt : b / (q * q) < 0 := div_neg_of_neg_of_pos hbneg hqqpos
      simp [Fl.lt, hlt]
  -- the assertion fires inside the stage-1 fit
  unfold voxel_calc
  rcases hdel : listwise_deletion y (nan_to_num z) s with ⟨y1, z1, s1⟩
  have hy1 : y1 = triples.map (·.1) := by
    have := congrArg Prod.fst hdel
    simp only [listwise_deletion] at this
    exact this.symm
  have hs1 : s1 = triples.map (·.2.2) := by
    have := congrArg (fun p => p.2.2) hdel
    simp only [listwise_deletion] at this
    exact this.symm
  have hprep : flame1_prepare_data y z s = (y1, demean z1, s1) := by
    simp [flame1_prepare_data, hdel]
  rw [hprep]
  have hstage : flame_stage1_onvoxel sfb y1 (demean z1) k s1
      = .error .assertionError := by
    simp only [flame_stage1_onvoxel, flame_stage1_onvoxel_state]
    rw [hy1, hs1, hstd]
    rw [if_pos hany]
  simp only [hstage]

/-- Witness for the amended C9: `variance = [-1, 1]` with finite
effects trips the assertion and `voxel_calc` raises. -/
theorem claim9_negative_variance_amended_witness :
    voxel_calc (fun _ _ _ => Fl.fin 1) (fun t _ => t) (fun f _ _ => f) (0, 0, 0)
      [Fl.fin 1, Fl.fin 2] [[Fl.fin 1], [Fl.fin 1]] [Fl.fin (-1), Fl.fin 1] 1
      [("c", [[Fl.fin 1]])] = .error .assertionError :=
  claim9_negative_variance_amended (fun _ _ _ => Fl.fin 1) (fun t _ => t)
    (fun f _ _ => f) (0, 0, 0) [Fl.fin 1, Fl.fin 2] [[Fl.fin 1], [Fl.fin 1]]
    [Fl.fin (-1), Fl.fin 1] 1 [("c", [[Fl.fin 1]])] 0
    (by with_unfolding_all decide) (by with_unfolding_all decide)
    (by with_unfolding_all decide) (by with_unfolding_all decide)
    (by with_unfolding_all decide) (by with_unfolding_all decide)

lemma sumFl_nil : sumFl [] = Fl.fin 0 := rfl

lemma stdFl_nil : stdFl [] = Fl.nan := by with_unfolding_all decide

/-- On an empty voxel (zero usable rows) the stage-1 fit does not
raise: the empty standard deviation is NaN, the normal equations are
the `k × k` zero matrix, the least-squares solve succeeds, and the
NaN norm poisons the returned mean vector and precision matrix — the
precision matrix fails the finiteness check of any later solve. -/
lemma stage1_empty (sfb : List Fl → List (List Fl) → List Fl → Fl)
    (z1 : List (List Fl)) (k : ℕ) (hk : 1 ≤ k) :
    ∃ mn icov, flame_stage1_onvoxel sfb [] z1 k [] = .ok (mn, icov) ∧
      (icov.all fun row => row.all Fl.isFinite) = false := by
  simp only [flame_stage1_onvoxel, flame_stage1_onvoxel_state, List.map_nil]
  rw [if_neg (by simp)]
  have hcg : ∃ gam, calcgam (sfb [] z1 []) [] z1 k [] =
      .ok (gam, (List.range k).map fun _ => (List.range k).map fun _ => Fl.fin 0) := by
    simp only [calcgam, List.length_nil, List.range_zero, List.map_nil, sumFl_nil]
    have hcond : ((((List.range k).map fun _ =>
          (List.range k).map fun _ => Fl.fin 0).all fun row =>
            row.all Fl.isFinite) &&
        (((List.range k).map fun _ => Fl.fin 0).all Fl.isFinite)) = true := by
      simp [List.all_eq_true, Fl.isFinite]
    have hl : lstsqFl ((List.range k).map fun _ =>
          (List.range k).map fun _ => Fl.fin 0)
        ((List.range k).map fun _ => Fl.fin 0) =
        .ok ((solveSquareQ
          (((List.range k).map fun _ =>
            (List.range k).map fun _ => Fl.fin 0).map (·.map Fl.toQ))
          (((List.range k).map fun _ => Fl.fin 0).map Fl.toQ)).map Fl.fin) := by
      unfold lstsqFl
      rw [if_pos hcond]
    rw [hl]
    exact ⟨_, rfl⟩
  rcases hcg with ⟨gam, hcg⟩
  rw [stdFl_nil]
  simp only [hcg]
  refine ⟨_, _, rfl, ?_⟩
  have hmm : Fl.mul Fl.nan Fl.nan = Fl.nan := rfl
  rw [hmm]
  obtain ⟨k', rfl⟩ : ∃ k', k = k' + 1 := ⟨k - 1, by omega⟩
  rw [List.range_succ_eq_map]
  simp [List.all_cons, Fl.div, Fl.isFinite]

/-- C4: if listwise deletion leaves zero usable rows, the voxel
contributes no contrast result at all — every (non-degenerate,
at-least-one-row) contrast evaluation fails on the NaN-poisoned
estimate and is skipped, so `voxel_calc` returns an empty result set
for the voxel rather than a usable estimate. -/
theorem claim4_zero_usable_rows_no_result
    (sfb : List Fl → List (List Fl) → List Fl → Fl) (t2z : Fl → ℤ → Fl)
    (f2z : Fl → ℤ → ℤ → Fl) (coordinate : Coord) (y : List Fl)
    (z : List (List Fl)) (s : List Fl) (k : ℕ)
    (cmatdict : List (String × List (List Fl)))
    (hk : 1 ≤ k)
    (hempty : (flame1_prepare_data y z s).1 = [])
    (hcm : ∀ p ∈ cmatdict, p.2 ≠ ([] : List (List Fl))) :
    voxel_calc sfb t2z f2z coordinate y z s k cmatdict = .ok (some []) := by
  rcases hdel : listwise_deletion y (nan_to_num z) s with ⟨y1, z1, s1⟩
  have hprep : flame1_prepare_data y z s = (y1, demean z1, s1) := by
    simp [flame1_prepare_data, hdel]
  have hy1 : y1 = [] := by rw [hprep] at hempty; exact hempty
  have h1 := congrArg Prod.fst hdel
  simp only [listwise_deletion] at h1
  rw [hy1] at h1
  have htr := List.map_eq_nil_iff.mp h1
  have h3 := congrArg (fun p => p.2.2) hdel
  simp only [listwise_deletion] at h3
  rw [htr] at h3
  have hs1 : s1 = [] := by simpa using h3.symm
  have hprep' : flame1_prepare_data y z s = ([], demean z1, []) := by
    rw [hprep, hy1, hs1]
  unfold voxel_calc
  rw [hprep']
  obtain ⟨mn, icov, hst, hbad⟩ := stage1_empty sfb (demean z1) k hk
  simp only [hst]
  have hloop : voxelLoop t2z f2z coordinate mn icov ([] : List Fl).length cmatdict
      = .ok [] := by
    rw [voxelLoop_eq]
    have : (cmatdict.filterMap fun p =>
        (flame1_contrast t2z f2z mn icov ([] : List Fl).length p.2).toOption.map
          (fun r => (p.1, (coordinate, r)))) = [] := by
      apply List.filterMap_eq_nil_iff.mpr
      intro p hp
      rw [flame1_contrast_err_of_bad_icov hbad (hcm p hp)]
      rfl
    rw [this]
  simp only [hloop]

/-- Witness for C4: one subject whose effect is NaN; deletion leaves
zero rows and the voxel produces no contrast results. -/
theorem claim4_zero_usable_rows_no_result_witness :
    voxel_calc (fun _ _ _ => Fl.fin 1) (fun t _ => t) (fun f _ _ => f) (0, 0, 0)
      [Fl.nan] [[Fl.fin 1]] [Fl.fin 1] 1 [("c", [[Fl.fin 1]])] = .ok (some []) :=
  claim4_zero_usable_rows_no_result (fun _ _ _ => Fl.fin 1) (fun t _ => t)
    (fun f _ _ => f) (0, 0, 0) [Fl.nan] [[Fl.fin 1]] [Fl.fin 1] 1
    [("c", [[Fl.fin 1]])] (by with_unfolding_all decide)
    (by with_unfolding_all decide)
    (by intro p hp; simp at hp; rw [hp]; simp)

/-! Lemmas about the output-volume assembly. -/

lemma outputNameOf_eq_masks {s : StatName} :
    outputNameOf s = "masks" ↔ s = .mask := by
  cases s <;> simp [outputNameOf]

lemma outputNameOf_eq_zstats {s : StatName} :
    outputNameOf s = "zstats" ↔ s = .zstat := by
  cases s <;> simp [outputNameOf]

lemma slotAt_updateOut_other {st : OutState} {name n : String} {i j : ℕ}
    {vol : Volume} (hne : n ≠ name) :
    slotAt (updateOut st name j vol) n i = slotAt st n i := by
  simp [slotAt, updateOut, hne]

lemma updateOut_apply_other {st : OutState} {name n : String} {j : ℕ}
    {vol : Volume} (hne : n ≠ name) : updateOut st name j vol n = st n := by
  simp [updateOut, hne]

lemma slotAt_updateOut_ne_index {st : OutState} {name n : String} {i j : ℕ}
    {vol : Volume} (hij : i ≠ j) :
    slotAt (updateOut st name j vol) n i = slotAt st n i := by
  by_cases hn : n = name
  · subst hn
    simp only [slotAt, updateOut, if_pos rfl]
    cases hst : st n
    · rfl
    · simp [List.getElem?_set_ne (Ne.symm hij)]
  · exact slotAt_updateOut_other hn

lemma slotAt_updateOut_self {st : OutState} {name : String} {i : ℕ}
    {vol : Volume} {l : List (Option Volume)} (hst : st name = some l)
    (hi : i < l.length) :
    slotAt (updateOut st name i vol) name i = some (some vol) := by
  simp [slotAt, updateOut, hst, List.getElem?_set_self hi]

/-- Shape invariant of the `output_files` state: the `masks` and
`zstats` groups exist and hold one slot per contrast. -/
def goodShape (st : OutState) (L : ℕ) : Prop :=
  (∃ lm, st "masks" = some lm ∧ lm.length = L) ∧
  (∃ lz, st "zstats" = some lz ∧ lz.length = L)

lemma goodShape_updateOut {st : OutState} {L : ℕ} {name : String} {j : ℕ}
    {vol : Volume} (h : goodShape st L) :
    goodShape (updateOut st name j vol) L := by
  obtain ⟨⟨lm, hm, hml⟩, ⟨lz, hz, hzl⟩⟩ := h
  constructor
  · by_cases hn : ("masks" : String) = name
    · subst hn
      exact ⟨lm.set j (some vol), by simp [updateOut, hm], by simp [hml]⟩
    · exact ⟨lm, by rw [updateOut_apply_other hn]; exact hm, hml⟩
  · by_cases hn : ("zstats" : String) = name
    · subst hn
      exact ⟨lz.set j (some vol), by simp [updateOut, hz], by simp [hzl]⟩
    · exact ⟨lz, by rw [updateOut_apply_other hn]; exact hz, hzl⟩

lemma goodShape_innerFold {refShape : ℕ × ℕ × ℕ} {recs : List (Coord × Rec)}
    {L n : ℕ} : ∀ (rows : List StatName) (st : OutState), goodShape st L →
    goodShape (rows.foldl
      (fun acc s => updateOut acc (outputNameOf s) n (mkVolume refShape recs s))
      st) L := by
  intro rows
  induction rows with
  | nil => intro st h; exact h
  | cons s rest ih => intro st h; exact ih _ (goodShape_updateOut h)

lemma goodShape_processContrast {refShape : ℕ × ℕ × ℕ}
    {recs : List (Coord × Rec)} {L n : ℕ} {st : OutState}
    (h : goodShape st L) : goodShape (processContrast refShape recs n st) L :=
  goodShape_innerFold _ st h

lemma innerFold_slot_ne_index {refShape : ℕ × ℕ × ℕ}
    {recs : List (Coord × Rec)} {n : ℕ} :
    ∀ (rows : List StatName) (st : OutState) (tname : String) (j : ℕ), j ≠ n →
    slotAt (rows.foldl
      (fun acc s => updateOut acc (outputNameOf s) n (mkVolume refShape recs s))
      st) tname j = slotAt st tname j := by
  intro rows
  induction rows with
  | nil => intro st tname j _; rfl
  | cons s rest ih =>
      intro st tname j hj
      simp only [List.foldl_cons]
      rw [ih _ tname j hj, slotAt_updateOut_ne_index hj]

lemma innerFold_slot_of_not_mem {refShape : ℕ × ℕ × ℕ}
    {recs : List (Coord × Rec)} {n : ℕ} (tname : String) (tgtStat : StatName)
    (hiff : ∀ s : StatName, outputNameOf s = tname ↔ s = tgtStat) :
    ∀ (rows : List StatName) (st : OutState) (j : ℕ), tgtStat ∉ rows →
    slotAt (rows.foldl
      (fun acc s => updateOut acc (outputNameOf s) n (mkVolume refShape recs s))
      st) tname j = slotAt st tname j := by
  intro rows
  induction rows with
  | nil => intro st j _; rfl
  | cons s rest ih =>
      intro st j hmem
      simp only [List.foldl_cons]
      have hs : s ≠ tgtStat := fun hc => hmem (by simp [hc])
      have hname : tname ≠ outputNameOf s := by
        intro hc
        exact hs ((hiff s).mp hc.symm)
      rw [ih _ j (fun hc => hmem (by simp [hc])), slotAt_updateOut_other hname]

lemma innerFold_slot_set {refShape : ℕ × ℕ × ℕ} {recs : List (Coord × Rec)}
    {n L : ℕ} (tname : String) (tgtStat : StatName)
    (hiff : ∀ s : StatName, outputNameOf s = tname ↔ s = tgtStat)
    (htm : tname = "masks" ∨ tname = "zstats") (hnL : n < L) :
    ∀ (rows : List StatName) (st : OutState), rows.Nodup → tgtStat ∈ rows →
    goodShape st L →
    slotAt (rows.foldl
      (fun acc s => updateOut acc (outputNameOf s) n (mkVolume refShape recs s))
      st) tname n = some (some (mkVolume refShape recs tgtStat)) := by
  intro rows
  induction rows with
  | nil => intro st _ hmem; cases hmem
  | cons s rest ih =>
      intro st hnd hmem hshape
      simp only [List.foldl_cons]
      by_cases hs : s = tgtStat
      · subst hs
        have hnotin : s ∉ rest := (List.nodup_cons.mp hnd).1
        rw [innerFold_slot_of_not_mem tname s hiff rest _ n hnotin]
        have hname : outputNameOf s = tname := (hiff s).mpr rfl
        rw [hname]
        obtain ⟨l, hst, hlen⟩ : ∃ l, st tname = some l ∧ l.length = L := by
          rcases htm with h | h <;> subst h
          · exact hshape.1
          · exact hshape.2
        exact slotAt_updateOut_self hst (hlen ▸ hnL)
      · have hmem' : tgtStat ∈ rest := by
          rcases List.mem_cons.mp hmem with h | h
          · exact absurd h.symm hs
          · exact h
        exact ih _ (List.nodup_cons.mp hnd).2 hmem' (goodShape_updateOut hshape)

lemma mask_mem_rowsG (recs : List (Coord × Rec)) :
    StatName.mask ∈ rowsWithGuaranteed recs := by
  simp only [rowsWithGuaranteed]
  by_cases h : StatName.mask ∈ recKeys recs
  · exact List.mem_append_left _ (List.mem_append_left _ h)
  · rw [if_neg h]
    exact List.mem_append_left _ (List.mem_append_right _ (by simp))

lemma zstat_mem_rowsG (recs : List (Coord × Rec)) :
    StatName.zstat ∈ rowsWithGuaranteed recs := by
  simp only [rowsWithGuaranteed]
  by_cases h : StatName.zstat ∈ recKeys recs ++
      (if StatName.mask ∈ recKeys recs then [] else [StatName.mask])
  · exact List.mem_append_left _ h
  · rw [if_neg h]
    exact List.mem_append_right _ (by simp)

lemma rowsG_nodup (recs : List (Coord × Rec)) :
    (rowsWithGuaranteed recs).Nodup := by
  simp only [rowsWithGuaranteed]
  have h0 : (recKeys recs).Nodup := List.nodup_dedup _
  have h1 : (recKeys recs ++
      (if StatName.mask ∈ recKeys recs then [] else [StatName.mask])).Nodup := by
    by_cases h : StatName.mask ∈ recKeys recs
    · simpa [h] using h0
    · rw [if_neg h, List.nodup_append]
      refine ⟨h0, by simp, ?_⟩
      intro a ha hb
      rw [List.mem_singleton] at hb
      subst hb
      exact h ha
  by_cases h2 : StatName.zstat ∈ recKeys recs ++
      (if StatName.mask ∈ recKeys recs then [] else [StatName.mask])
  · simpa [h2] using h1
  · rw [if_neg h2, List.nodup_append]
    refine ⟨h1, by simp, ?_⟩
    intro a ha hb
    rw [List.mem_singleton] at hb
    subst hb
    exact h2 ha

lemma writeLoop_slot_untouched (refShape : ℕ × ℕ × ℕ)
    (vr : String → List (Coord × Rec)) :
    ∀ (l : List (String × List (List Fl))) (n : ℕ) (st : OutState)
      (tname : String) (j : ℕ), j < n →
    slotAt (writeLoop refShape vr n l st) tname j = slotAt st tname j := by
  intro l
  induction l with
  | nil => intro n st tname j _; rfl
  | cons p rest ih =>
      rcases p with ⟨cname, cm⟩
      intro n st tname j hj
      simp only [writeLoop]
      rw [ih (n + 1) _ tname j (by omega)]
      exact innerFold_slot_ne_index _ _ tname j (by omega)

lemma goodShape_writeLoop (refShape : ℕ × ℕ × ℕ)
    (vr : String → List (Coord × Rec)) {L : ℕ} :
    ∀ (l : List (String × List (List Fl))) (n : ℕ) (st : OutState),
    goodShape st L → goodShape (writeLoop refShape vr n l st) L := by
  intro l
  induction l with
  | nil => intro n st h; exact h
  | cons p rest ih =>
      rcases p with ⟨cname, cm⟩
      intro n st h
      exact ih (n + 1) _ (goodShape_processContrast h)

lemma writeLoop_main (refShape : ℕ × ℕ × ℕ) (vr : String → List (Coord × Rec))
    (L : ℕ) :
    ∀ (l : List (String × List (List Fl))) (n : ℕ) (st : OutState) (i : ℕ)
      (cname : String) (cm : List (List Fl)),
    l[i]? = some (cname, cm) → n + l.length = L → goodShape st L →
    slotAt (writeLoop refShape vr n l st) "masks" (n + i)
      = some (some (mkVolume refShape (vr cname) .mask)) ∧
    slotAt (writeLoop refShape vr n l st) "zstats" (n + i)
      = some (some (mkVolume refShape (vr cname) .zstat)) := by
  intro l
  induction l with
  | nil => intro n st i cname cm hget; simp at hget
  | cons p rest ih =>
      rcases p with ⟨c0name, c0⟩
      intro n st i cname cm hget hlen hshape
      cases i with
      | zero =>
          simp only [List.getElem?_cons_zero, Option.some.injEq, Prod.mk.injEq]
            at hget
          obtain ⟨rfl, rfl⟩ := hget
          simp only [writeLoop, Nat.add_zero]
          have hnL : n < L := by simp at hlen; omega
          constructor
          · rw [writeLoop_slot_untouched refShape vr rest (n + 1) _ "masks" n
              (by omega)]
            exact innerFold_slot_set "masks" .mask (fun s => outputNameOf_eq_masks)
              (Or.inl rfl) hnL _ st (rowsG_nodup _) (mask_mem_rowsG _) hshape
          · rw [writeLoop_slot_untouched refShape vr rest (n + 1) _ "zstats" n
              (by omega)]
            exact innerFold_slot_set "zstats" .zstat
              (fun s => outputNameOf_eq_zstats) (Or.inr rfl) hnL _ st
              (rowsG_nodup _) (zstat_mem_rowsG _) hshape
      | succ i' =>
          simp only [List.getElem?_cons_succ] at hget
          simp only [writeLoop]
          have := ih (n + 1) (processContrast refShape (vr c0name) n st) i'
            cname cm hget (by simp at hlen ⊢; omega)
            (goodShape_processContrast hshape)
          have harith : n + (i' + 1) = (n + 1) + i' := by omega
          rw [harith]
          exact this

/-- C1: for every contrast of a non-empty contrast specification the
assembled outputs contain a `mask` volume and a `zstat` volume at that
contrast's slot, each with the reference geometry's shape; when no
voxel produced any statistic for the contrast, the mask volume is all
`False` and the zstat volume is all NaN. -/
theorem claim1_guaranteed_mask_zstat_volumes (refShape : ℕ × ℕ × ℕ)
    (cmatdict : List (String × List (List Fl)))
    (voxel_results : String → List (Coord × Rec)) (i : ℕ) (cname : String)
    (cm : List (List Fl)) (hget : cmatdict[i]? = some (cname, cm)) :
    slotAt (write_outputs refShape cmatdict voxel_results) "masks" i
      = some (some (mkVolume refShape (voxel_results cname) .mask))
    ∧ slotAt (write_outputs refShape cmatdict voxel_results) "zstats" i
      = some (some (mkVolume refShape (voxel_results cname) .zstat))
    ∧ (mkVolume refShape (voxel_results cname) .mask).shape = refShape
    ∧ (mkVolume refShape (voxel_results cname) .zstat).shape = refShape
    ∧ (voxel_results cname = [] →
        (∀ c, (mkVolume refShape (voxel_results cname) .mask).data c
          = .boolean false)
        ∧ ∀ c, (mkVolume refShape (voxel_results cname) .zstat).data c
          = .num Fl.nan) := by
  have hmaskmem : ("masks" : String) ∈ FLAME1_outputs := by decide
  have hzstatmem : ("zstats" : String) ∈ FLAME1_outputs := by decide
  have hshape : goodShape
      (fun n => if n ∈ FLAME1_outputs
        then some (List.replicate cmatdict.length (none : Option Volume))
        else none) cmatdict.length :=
    ⟨⟨List.replicate cmatdict.length none, by simp [hmaskmem], by simp⟩,
     ⟨List.replicate cmatdict.length none, by simp [hzstatmem], by simp⟩⟩
  have hmain := writeLoop_main refShape voxel_results cmatdict.length cmatdict 0
    _ i cname cm hget (by simp) hshape
  simp only [Nat.zero_add] at hmain
  refine ⟨hmain.1, hmain.2, rfl, rfl, ?_⟩
  intro hnone
  constructor
  · intro c
    simp [mkVolume, hnone, alookup, arrayDefault]
  · intro c
    simp [mkVolume, hnone, alookup, arrayDefault]

/-- Witness for C1: one contrast, no voxel results. -/
theorem claim1_guaranteed_mask_zstat_volumes_witness :
    slotAt (write_outputs (2, 2, 2) [("c1", [[Fl.fin 1]])] (fun _ => []))
        "masks" 0
      = some (some (mkVolume (2, 2, 2) ([] : List (Coord × Rec)) .mask))
    ∧ slotAt (write_outputs (2, 2, 2) [("c1", [[Fl.fin 1]])] (fun _ => []))
        "zstats" 0
      = some (some (mkVolume (2, 2, 2) ([] : List (Coord × Rec)) .zstat))
    ∧ (mkVolume (2, 2, 2) ([] : List (Coord × Rec)) .mask).shape = (2, 2, 2)
    ∧ (mkVolume (2, 2, 2) ([] : List (Coord × Rec)) .zstat).shape = (2, 2, 2)
    ∧ (([] : List (Coord × Rec)) = [] →
        (∀ c, (mkVolume (2, 2, 2) ([] : List (Coord × Rec)) .mask).data c
          = .boolean false)
        ∧ ∀ c, (mkVolume (2, 2, 2) ([] : List (Coord × Rec)) .zstat).data c
          = .num Fl.nan) :=
  claim1_guaranteed_mask_zstat_volumes (2, 2, 2) [("c1", [[Fl.fin 1]])]
    (fun _ => []) 0 "c1" [[Fl.fin 1]] rfl

/-! Lemmas for the exact-real-arithmetic scale-invariance property. -/

lemma meanRv_smul {m : ℕ} (y : Fin m → ℝ) (c : ℝ) :
    meanRv (fun i => c * y i) = c * meanRv y := by
  simp only [meanRv, ← Finset.mul_sum, mul_div_assoc]

lemma stdRv_smul {m : ℕ} (y : Fin m → ℝ) (c : ℝ) (hc : 0 ≤ c) :
    stdRv (fun i => c * y i) = c * stdRv y := by
  simp only [stdRv]
  rw [meanRv_smul]
  have h1 : (fun i => (c * y i - c * meanRv y) ^ 2)
      = fun i => c ^ 2 * (y i - meanRv y) ^ 2 := by
    funext i; ring
  rw [h1, meanRv_smul, Real.sqrt_mul (sq_nonneg c), Real.sqrt_sq hc]

lemma matrix_smul_inv {nn : ℕ} (c : ℝ) (hc : c ≠ 0)
    (A : Matrix (Fin nn) (Fin nn) ℝ) : (c • A)⁻¹ = c⁻¹ • A⁻¹ := by
  rcases Nat.eq_zero_or_pos nn with hn | hn
  · subst hn
    apply Matrix.ext
    intro i _
    exact i.elim0
  · obtain ⟨mm, rfl⟩ : ∃ mm, nn = mm + 1 := ⟨nn - 1, by omega⟩
    rw [Matrix.inv_def, Matrix.inv_def, Matrix.det_smul, Matrix.adjugate_smul]
    simp only [Fintype.card_fin, Nat.add_sub_cancel]
    rw [smul_smul, smul_smul]
    congr 1
    by_cases hd : A.det = 0
    · rw [hd]
      simp
    · rw [Ring.inverse_eq_inv, Ring.inverse_eq_inv]
      field_simp
      ring

lemma stage1R_rescale {m k : ℕ}
    (sfb : (Fin m → ℝ) → Matrix (Fin m) (Fin k) ℝ → (Fin m → ℝ) → ℝ)
    (y : Fin m → ℝ) (z : Matrix (Fin m) (Fin k) ℝ) (s : Fin m → ℝ)
    (kc : ℝ) (hk : 0 < kc) (hstd : stdRv y ≠ 0) :
    flame_stage1_onvoxelR sfb (fun i => kc * y i) z (fun i => kc ^ 2 * s i)
      = (kc • (flame_stage1_onvoxelR sfb y z s).1,
         (kc ^ 2)⁻¹ • (flame_stage1_onvoxelR sfb y z s).2) := by
  simp only [flame_stage1_onvoxelR]
  rw [stdRv_smul y kc hk.le]
  have hy1 : (fun i => kc * y i / (kc * stdRv y)) = fun i => y i / stdRv y := by
    funext i
    rw [mul_div_mul_left _ _ hk.ne']
  have hs1 : (fun i => kc ^ 2 * s i / (kc * stdRv y) ^ 2)
      = fun i => s i / stdRv y ^ 2 := by
    funext i
    rw [mul_pow, mul_div_mul_left _ _ (pow_ne_zero 2 hk.ne')]
  rw [hy1, hs1]
  refine Prod.ext ?_ ?_
  · funext j
    simp only [Pi.smul_apply, smul_eq_mul]
    ring
  · apply Matrix.ext
    intro a b
    simp only [Matrix.smul_apply, Matrix.of_apply, smul_eq_mul]
    rw [mul_pow]
    field_simp

lemma t_ols_contrastR_rescale {kk : ℕ} (t2z : ℝ → ℤ → ℝ) (mn : Fin kk → ℝ)
    (icov : Matrix (Fin kk) (Fin kk) ℝ) (dof : ℤ) (row : Fin kk → ℝ)
    (kc : ℝ) (hk : 0 < kc) :
    (t_ols_contrastR t2z (kc • mn) ((kc ^ 2)⁻¹ • icov) dof row).2.2
      = (t_ols_contrastR t2z mn icov dof row).2.2 := by
  have hkk : (kc ^ 2 : ℝ) ≠ 0 := pow_ne_zero 2 hk.ne'
  simp only [t_ols_contrastR]
  rw [matrix_smul_inv _ (inv_ne_zero hkk), inv_inv]
  rw [Matrix.smul_mulVec_assoc, Matrix.dotProduct_smul, Matrix.dotProduct_smul]
  simp only [smul_eq_mul]
  have hvc : ∀ vc : ℝ, (kc ^ 2 * vc ≤ 0 ↔ vc ≤ 0) := by
    intro vc
    constructor
    · intro h
      nlinarith [sq_nonneg kc, pow_pos hk 2]
    · intro h
      nlinarith [pow_pos hk 2]
  by_cases hle : row ⬝ᵥ icov⁻¹.mulVec row ≤ 0
  · rw [if_pos ((hvc _).mpr hle), if_pos hle]
  · rw [if_neg (fun hc => hle ((hvc _).mp hc)), if_neg hle]
    have hsq : Real.sqrt (kc ^ 2 * (row ⬝ᵥ icov⁻¹.mulVec row))
        = kc * Real.sqrt (row ⬝ᵥ icov⁻¹.mulVec row) := by
      rw [Real.sqrt_mul (sq_nonneg kc), Real.sqrt_sq hk.le]
    rw [hsq, mul_div_mul_left _ _ hk.ne']

lemma vecMul_smul_matrix {p q : ℕ} (v : Fin p → ℝ) (c : ℝ)
    (M : Matrix (Fin p) (Fin q) ℝ) : v ᵥ* (c • M) = c • (v ᵥ* M) := by
  funext j
  simp only [Matrix.vecMul, Matrix.dotProduct, Matrix.smul_apply, Pi.smul_apply,
    smul_eq_mul, Finset.mul_sum]
  apply Finset.sum_congr rfl
  intro i _
  ring

lemma f_ols_contrastR_rescale {kk n : ℕ} (f2z : ℝ → ℤ → ℤ → ℝ)
    (mn : Fin kk → ℝ) (icov : Matrix (Fin kk) (Fin kk) ℝ) (dof1 dof2 : ℤ)
    (fcontrast : Matrix (Fin n) (Fin kk) ℝ) (kc : ℝ) (hk : 0 < kc) :
    f_ols_contrastR f2z (kc • mn) ((kc ^ 2)⁻¹ • icov) dof1 dof2 fcontrast
      = f_ols_contrastR f2z mn icov dof1 dof2 fcontrast := by
  have hkk : (kc ^ 2 : ℝ) ≠ 0 := pow_ne_zero 2 hk.ne'
  simp only [f_ols_contrastR]
  rw [matrix_smul_inv _ (inv_ne_zero hkk), inv_inv]
  rw [Matrix.smul_mul, Matrix.mul_smul, matrix_smul_inv _ hkk, Matrix.smul_mul]
  rw [Matrix.mulVec_smul, Matrix.vecMul_smul, vecMul_smul_matrix]
  rw [Matrix.smul_dotProduct, Matrix.smul_dotProduct, Matrix.dotProduct_smul]
  simp only [smul_eq_mul]
  have hco : ∀ X : ℝ, kc * ((kc ^ 2)⁻¹ * (kc * X)) = X := by
    intro X
    field_simp
    ring
  rw [hco]

/-- C3: scaling every effect value by a positive constant `kc` and
every variance by `kc²` leaves the t statistic, its z-score, the F
statistic and its z-score unchanged, exactly, in real arithmetic: the
estimator normalises by the sample standard deviation before fitting
and undoes the rescaling on the returned mean vector and precision
matrix, so the two runs differ only by `mn ↦ kc·mn`,
`icov ↦ kc⁻²·icov`, which the contrast formulas cancel. -/
theorem claim3_scale_invariance {m k n : ℕ}
    (sfb : (Fin m → ℝ) → Matrix (Fin m) (Fin k) ℝ → (Fin m → ℝ) → ℝ)
    (t2z : ℝ → ℤ → ℝ) (f2z : ℝ → ℤ → ℤ → ℝ)
    (y : Fin m → ℝ) (z : Matrix (Fin m) (Fin k) ℝ) (s : Fin m → ℝ)
    (npts : ℕ) (row : Fin k → ℝ) (fcontrast : Matrix (Fin n) (Fin k) ℝ)
    (kc : ℝ) (hk : 0 < kc) (hstd : stdRv y ≠ 0) :
    ((flame1_t_pipelineR sfb t2z (fun i => kc * y i) z (fun i => kc ^ 2 * s i)
        npts row).2.2
      = (flame1_t_pipelineR sfb t2z y z s npts row).2.2)
    ∧ flame1_f_pipelineR sfb f2z (fun i => kc * y i) z (fun i => kc ^ 2 * s i)
        npts fcontrast
      = flame1_f_pipelineR sfb f2z y z s npts fcontrast := by
  have hs := stage1R_rescale sfb y z s kc hk hstd
  constructor
  · simp only [flame1_t_pipelineR, hs]
    exact t_ols_contrastR_rescale t2z _ _ _ row kc hk
  · simp only [flame1_f_pipelineR, hs]
    exact f_ols_contrastR_rescale f2z _ _ _ _ fcontrast kc hk

/-- Witness for C3: two subjects, intercept design, `effect = [0, 4]`
(standard deviation `2`), scaling constant `kc = 2`. -/
theorem claim3_scale_invariance_witness :
    ((flame1_t_pipelineR (fun _ _ _ => (1 : ℝ)) (fun t _ => t)
        (fun i => (2 : ℝ) * (![(0 : ℝ), 4]) i) (Matrix.of ![![(1 : ℝ)], ![1]])
        (fun i => (2 : ℝ) ^ 2 * (![(1 : ℝ), 1]) i) 2 ![(1 : ℝ)]).2.2
      = (flame1_t_pipelineR (fun _ _ _ => (1 : ℝ)) (fun t _ => t) ![(0 : ℝ), 4]
        (Matrix.of ![![(1 : ℝ)], ![1]]) ![(1 : ℝ), 1] 2 ![(1 : ℝ)]).2.2)
    ∧ flame1_f_pipelineR (fun _ _ _ => (1 : ℝ)) (fun f _ _ => f)
        (fun i => (2 : ℝ) * (![(0 : ℝ), 4]) i) (Matrix.of ![![(1 : ℝ)], ![1]])
        (fun i => (2 : ℝ) ^ 2 * (![(1 : ℝ), 1]) i) 2
        (Matrix.of ![![(1 : ℝ)], ![2]])
      = flame1_f_pipelineR (fun _ _ _ => (1 : ℝ)) (fun f _ _ => f) ![(0 : ℝ), 4]
        (Matrix.of ![![(1 : ℝ)], ![1]]) ![(1 : ℝ), 1] 2
        (Matrix.of ![![(1 : ℝ)], ![2]]) :=
  claim3_scale_invariance (fun _ _ _ => (1 : ℝ)) (fun t _ => t) (fun f _ _ => f)
    ![(0 : ℝ), 4] (Matrix.of ![![(1 : ℝ)], ![1]]) ![(1 : ℝ), 1] 2 ![(1 : ℝ)]
    (Matrix.of ![![(1 : ℝ)], ![2]]) 2 (by norm_num)
    (by
      have h2 : meanRv (![(0 : ℝ), 4]) = 2 := by
        simp [meanRv, Fin.sum_univ_two]
        norm_num
      have h4 : stdRv (![(0 : ℝ), 4]) = 2 := by
        rw [stdRv, h2]
        have h3 : meanRv (fun i => ((![(0 : ℝ), 4]) i - 2) ^ 2) = 4 := by
          simp [meanRv, Fin.sum_univ_two]
          norm_num
        rw [h3, show (4 : ℝ) = 2 ^ 2 by norm_num,
          Real.sqrt_sq (by norm_num : (0 : ℝ) ≤ 2)]
      rw [h4]
      norm_num)

end Flame1
